import Mathlib

/-!
Verification of the weekly aggregation engine of the jira_analytics_bot
repository (src/jira_service.py and src/analytics_service.py).

Modelling conventions:
* `datetime` values are modelled as `Int` seconds; `t / 86400` is the
  calendar day of `t` (Python's floor division `//` agrees with `Int`'s
  `/` for a positive divisor), and day `0` (the epoch day 1970-01-01) is
  a Thursday, so `(day + 3) % 7` is Python's `datetime.weekday()`
  (Monday = 0).
* Python `float` hour values are modelled as `ℚ`; all hour values in the
  program are sums and quotients of integers, which `ℚ` represents exactly.
* Python `dict`s are modelled as association lists in insertion order:
  assignment updates an existing key in place and appends a fresh key,
  exactly like the insertion-ordered dicts the source relies on.
* The Jira client (an I/O collaborator) is modelled as two function
  parameters: `fetchIssues` for `get_issues_for_week` and `worklogsOf`
  for `get_worklogs`.
* `datetime.strptime(s, '%Y-%m-%d')` is modelled by `parseDate`, which
  returns `none` exactly when the Python call would raise; computations
  that can raise become `Option`-valued, `none` meaning the call aborts.
-/

/-! ## Association lists modelling Python dicts -/

def alContains {α : Type} (m : List (String × α)) (k : String) : Bool :=
  m.any (fun p => p.1 == k)

def alGet? {α : Type} (m : List (String × α)) (k : String) : Option α :=
  (m.find? (fun p => p.1 == k)).map Prod.snd

def alGetD {α : Type} (m : List (String × α)) (k : String) (d : α) : α :=
  (alGet? m k).getD d

/-- `m[k] = v` on a Python dict: update in place if present, else append. -/
def alSet {α : Type} (m : List (String × α)) (k : String) (v : α) : List (String × α) :=
  if alContains m k then m.map (fun p => if p.1 == k then (k, v) else p)
  else m ++ [(k, v)]

/-- `m[k] += v` on a `defaultdict(float)`. -/
def alAdd (m : List (String × ℚ)) (k : String) (v : ℚ) : List (String × ℚ) :=
  alSet m k (alGetD m k 0 + v)

/-- `m[k].append v` on a `defaultdict(list)`. -/
def alPush {α : Type} (m : List (String × List α)) (k : String) (v : α) :
    List (String × List α) :=
  alSet m k (alGetD m k [] ++ [v])

/-! ## Calendar arithmetic -/

/-- The calendar day holding second `t` (Python's `.date()` on a datetime). -/
def dayOf (t : Int) : Int := t / 86400

/-- Python's `datetime.weekday()`: Monday is 0.  Day 0 is a Thursday. -/
def pyWeekday (t : Int) : Int := (dayOf t + 3) % 7

/-- `replace(hour=0, minute=0, second=0, microsecond=0)`. -/
def midnightOf (t : Int) : Int := dayOf t * 86400

def isLeapYear (y : Nat) : Bool :=
  (y % 4 == 0 && y % 100 != 0) || y % 400 == 0

def daysInMonth (y m : Nat) : Nat :=
  if m = 2 then (if isLeapYear y then 29 else 28)
  else if m = 4 ∨ m = 6 ∨ m = 9 ∨ m = 11 then 30
  else 31

/-- Days since 1970-01-01 of the civil date `y-m-d` (standard civil-calendar
conversion, floor division throughout). -/
def daysFromCivil (y m d : Nat) : Int :=
  let yi : Int := if m ≤ 2 then (y : Int) - 1 else (y : Int)
  let era : Int := (if 0 ≤ yi then yi else yi - 399) / 400
  let yoe : Int := yi - era * 400
  let mp : Int := if 2 < m then (m : Int) - 3 else (m : Int) + 9
  let doy : Int := (153 * mp + 2) / 5 + (d : Int) - 1
  let doe : Int := yoe * 365 + yoe / 4 - yoe / 100 + doy
  era * 146097 + doe - 719468

/-- Civil date `(y, m, d)` of a day count since 1970-01-01 (inverse of
`daysFromCivil`). -/
def civilFromDays (z : Int) : Int × Int × Int :=
  let z' : Int := z + 719468
  let era : Int := (if 0 ≤ z' then z' else z' - 146096) / 146097
  let doe : Int := z' - era * 146097
  let yoe : Int := (doe - doe / 1460 + doe / 36524 - doe / 146096) / 365
  let y : Int := yoe + era * 400
  let doy : Int := doe - (365 * yoe + yoe / 4 - yoe / 100)
  let mp : Int := (5 * doy + 2) / 153
  let d : Int := doy - (153 * mp + 2) / 5 + 1
  let m : Int := if mp < 10 then mp + 3 else mp - 9
  (if m ≤ 2 then y + 1 else y, m, d)

/-! ## Decimal strings: rendering (`strftime`) and parsing (`strptime`) -/

/-- Decimal digits of `n`, most significant first (`fuel` only drives
structural termination; `n + 1` is always enough). -/
def natDigits : Nat → Nat → List Char
  | 0, _ => []
  | fuel + 1, n =>
    if n < 10 then [Nat.digitChar n]
    else natDigits fuel (n / 10) ++ [Nat.digitChar (n % 10)]

def padZeros (w : Nat) (s : List Char) : List Char :=
  List.replicate (w - s.length) '0' ++ s

def natStr (n : Nat) : String := String.mk (natDigits (n + 1) n)

/-- `strftime('%Y-%m-%d')` of the day holding second `t`. -/
def fmtDate (t : Int) : String :=
  let c := civilFromDays (dayOf t)
  String.mk (padZeros 4 (natDigits (c.1.natAbs + 1) c.1.natAbs)) ++ "-" ++
    String.mk (padZeros 2 (natDigits (c.2.1.natAbs + 1) c.2.1.natAbs)) ++ "-" ++
    String.mk (padZeros 2 (natDigits (c.2.2.natAbs + 1) c.2.2.natAbs))

/-- Python's `s[:10]` on a string (the first 10 characters). -/
def pyTake10 (s : String) : String := String.mk (s.data.take 10)

/-- Split a character list at `-` separators. -/
def splitDash (cur : List Char) : List Char → List (List Char)
  | [] => [cur.reverse]
  | c :: cs => if c = '-' then cur.reverse :: splitDash [] cs else splitDash (c :: cur) cs

/-- Decimal value of an all-digit character list (`none` on a non-digit). -/
def digitsToNat (acc : Nat) : List Char → Option Nat
  | [] => some acc
  | c :: cs => if c.isDigit then digitsToNat (acc * 10 + (c.toNat - '0'.toNat)) cs else none

/-- `datetime.strptime(s, '%Y-%m-%d').date()` as a day count since
1970-01-01; `none` exactly when the Python call raises `ValueError`
(wrong shape, non-digits, or an out-of-range year/month/day). -/
def parseDate (s : String) : Option Int :=
  match splitDash [] s.data with
  | [ys, ms, ds] =>
    if ys.length = 0 ∨ 4 < ys.length ∨ ms.length = 0 ∨ 2 < ms.length ∨
        ds.length = 0 ∨ 2 < ds.length then none
    else
      match digitsToNat 0 ys, digitsToNat 0 ms, digitsToNat 0 ds with
      | some y, some m, some d =>
        if 1 ≤ y ∧ 1 ≤ m ∧ m ≤ 12 ∧ 1 ≤ d ∧ d ≤ daysInMonth y m then
          some (daysFromCivil y m d)
        else none
      | _, _, _ => none
  | _ => none

/-! ## `JiraService.calculate_working_weeks` (src/jira_service.py:61-72) -/

/-- For `i` in `range(num_weeks)`: go back `weekday + 7 i` days from
`current_date`, truncate to midnight, and span 6 days 23:59:59. -/
def calculate_working_weeks (current_date : Int) (num_weeks : Nat) : List (Int × Int) :=
  (List.range num_weeks).map (fun (i : Nat) =>
    let start_of_week := midnightOf (current_date - (pyWeekday current_date + 7 * (i : Int)) * 86400)
    (start_of_week, start_of_week + (6 * 86400 + (23 * 3600 + 59 * 60 + 59))))

example : calculate_working_weeks (daysFromCivil 2025 1 8 * 86400 + 3600) 2 =
    [(daysFromCivil 2025 1 6 * 86400, daysFromCivil 2025 1 12 * 86400 + 86399),
     (daysFromCivil 2024 12 30 * 86400, daysFromCivil 2025 1 5 * 86400 + 86399)] := by
  decide

/-! ## Data model (src/jira_service.py) -/

/-- The fields of a Jira issue object that the engine reads. `assignee` is
the display name when an assignee exists; `timeoriginalestimate` is the
estimate in seconds when set. -/
structure RawIssue where
  key : String
  summary : String
  status : String
  assignee : Option String
  timeoriginalestimate : Option Int
deriving DecidableEq

/-- `_extract_issue_data` output (the fields the aggregation reads). -/
structure IssueData where
  key : String
  summary : String
  status : String
  assignee : String
  original_estimate_hours : ℚ
deriving DecidableEq

/-- `JiraService._extract_issue_data` (src/jira_service.py:148-165). -/
def extract_issue_data (i : RawIssue) : IssueData :=
  { key := i.key
    summary := i.summary
    status := i.status
    assignee := i.assignee.getD "Не назначен"
    original_estimate_hours := ((i.timeoriginalestimate.getD 0 : Int) : ℚ) / 3600 }

/-- The fields of a Jira worklog object that the engine reads. `author` is
the display name when an author exists; `started` is a timestamp string. -/
structure RawWorklog where
  author : Option String
  started : String
  timeSpentSeconds : Int
deriving DecidableEq

/-- `_extract_worklog_data` output (the fields the aggregation reads). -/
structure Worklog where
  issue_key : String
  author : String
  date : String
  hours : ℚ
deriving DecidableEq

/-- `JiraService._extract_worklog_data` (src/jira_service.py:167-180):
`date` is `worklog.started[:10]`, `hours` is `timeSpentSeconds / 3600`. -/
def extract_worklog_data (w : RawWorklog) (issue_key : String) : Worklog :=
  { issue_key := issue_key
    author := w.author.getD "Неизвестный автор"
    date := pyTake10 w.started
    hours := ((w.timeSpentSeconds : Int) : ℚ) / 3600 }

/-- One entry of `project_data['tasks_without_worklog']`
(src/jira_service.py:121-128). -/
structure TaskNoLog where
  week : String
  key : String
  summary : String
  assignee : String
  status : String
  estimated_hours : ℚ
deriving DecidableEq

/-- One entry of `project_data['weeks_info']`. -/
structure WeekInfo where
  start_date : Int
  end_date : Int
  issues_count : Nat
deriving DecidableEq

/-- `project_data` as built by `collect_project_data`
(src/jira_service.py:79-85). -/
structure ProjectData where
  weeks_info : List (String × WeekInfo)
  all_issues : List (String × IssueData)
  all_worklogs : List (String × List Worklog)
  users_hours : List (String × ℚ)
  tasks_without_worklog : List TaskNoLog
deriving DecidableEq

def emptyProjectData : ProjectData :=
  { weeks_info := [], all_issues := [], all_worklogs := [], users_hours := [],
    tasks_without_worklog := [] }

/-- `week_name = f"Неделя {week_idx+1}: {start} - {end}"`
(src/jira_service.py:89). -/
def weekName (idx : Nat) (ds de : Int) : String :=
  "Неделя " ++ natStr (idx + 1) ++ ": " ++ fmtDate ds ++ " - " ++ fmtDate de

/-! ## `JiraService.collect_project_data` (src/jira_service.py:74-146)

The per-issue worklog loop (lines 130-140): every worklog is parsed
(raising — `none` — on a malformed date), appended to `all_worklogs`, and
counted into `users_hours` when its date falls inside the current week. -/

/-- One iteration of the worklog loop: parse the date (raising — `none` —
if malformed), append the entry to `all_worklogs`, and count its hours when
it falls inside the current week. -/
def processWorklog1 (issue_key : String) (ds de : Int) (st : ProjectData)
    (w : RawWorklog) : Option ProjectData :=
  let wd := extract_worklog_data w issue_key
  (parseDate (pyTake10 w.started)).map (fun d =>
    let st := { st with all_worklogs := alPush st.all_worklogs issue_key wd }
    if dayOf ds ≤ d ∧ d ≤ dayOf de then
      { st with users_hours := alAdd st.users_hours wd.author wd.hours }
    else st)

def processWorklogs (issue_key : String) (ds de : Int) :
    List RawWorklog → ProjectData → Option ProjectData
  | [], st => some st
  | w :: ws, st =>
    match processWorklog1 issue_key ds de st w with
    | none => none
    | some st' => processWorklogs issue_key ds de ws st'

/-- The per-issue body (src/jira_service.py:107-140): skip an already seen
key, record the issue, and either record a no-worklog task or process the
worklogs. -/
def processIssue (worklogsOf : String → List RawWorklog) (wname : String)
    (ds de : Int) (st : ProjectData) (issue : RawIssue) : Option ProjectData :=
  if alContains st.all_issues issue.key then some st
  else
    let idata := extract_issue_data issue
    let st := { st with all_issues := alSet st.all_issues issue.key idata }
    let wls := worklogsOf issue.key
    if wls.isEmpty then
      some { st with tasks_without_worklog := st.tasks_without_worklog ++
        [({ week := wname, key := issue.key, summary := issue.summary,
            assignee := idata.assignee, status := idata.status,
            estimated_hours := idata.original_estimate_hours } : TaskNoLog)] }
    else processWorklogs issue.key ds de wls st

def processIssues (worklogsOf : String → List RawWorklog) (wname : String)
    (ds de : Int) : List RawIssue → ProjectData → Option ProjectData
  | [], st => some st
  | i :: is, st =>
    match processIssue worklogsOf wname ds de st i with
    | none => none
    | some st' => processIssues worklogsOf wname ds de is st'

/-- The per-week loop (src/jira_service.py:88-140). -/
def processWeeks (fetchIssues : Int × Int → List RawIssue)
    (worklogsOf : String → List RawWorklog) :
    Nat → List (Int × Int) → ProjectData → Option ProjectData
  | _, [], st => some st
  | idx, (ds, de) :: rest, st =>
    let wname := weekName idx ds de
    let info0 : WeekInfo := { start_date := ds, end_date := de, issues_count := 0 }
    let st := { st with weeks_info := alSet st.weeks_info wname info0 }
    let issues := fetchIssues (ds, de)
    let info1 : WeekInfo := { start_date := ds, end_date := de, issues_count := issues.length }
    let st := { st with weeks_info := alSet st.weeks_info wname info1 }
    match processIssues worklogsOf wname ds de issues st with
    | none => none
    | some st' => processWeeks fetchIssues worklogsOf (idx + 1) rest st'

/-- `JiraService.collect_project_data(project_key, weeks_count)`: the Jira
client is abstracted into `fetchIssues` (`get_issues_for_week`, or
`get_issues_for_user_week` when a username is given) and `worklogsOf`
(`get_worklogs`); `current_date` stands for `datetime.now()`. -/
def collect_project_data (current_date : Int) (weeks_count : Nat)
    (fetchIssues : Int × Int → List RawIssue)
    (worklogsOf : String → List RawWorklog) : Option ProjectData :=
  processWeeks fetchIssues worklogsOf 0
    (calculate_working_weeks current_date weeks_count) emptyProjectData

/-! ## `AnalyticsService._create_weekly_stats` (src/analytics_service.py:55-104) -/

/-- One value of the `weekly_stats` dict (src/analytics_service.py:93-102). -/
structure WeeklyStat where
  worked_hours : List (String × ℚ)
  estimated_as_worked_hours : List (String × ℚ)
  total_worked_hours : List (String × ℚ)
  tasks_without_worklog : List TaskNoLog
  total_issues : Nat
  worklogs : List (String × List Worklog)
  start_date : Int
  end_date : Int
deriving DecidableEq

/-- The inner worklog loop (src/analytics_service.py:67-73): parse the date
(raising — `none` — if malformed), and when it falls inside the week,
record the entry in `week_worklogs` and its hours in `week_users_hours`. -/
def weekFoldWorklogs (ds de : Int) (issue_key : String) :
    List Worklog → List (String × List Worklog) × List (String × ℚ) →
    Option (List (String × List Worklog) × List (String × ℚ))
  | [], acc => some acc
  | w :: ws, acc =>
    match parseDate w.date with
    | none => none
    | some d =>
      if dayOf ds ≤ d ∧ d ≤ dayOf de then
        weekFoldWorklogs ds de issue_key ws
          (alPush acc.1 issue_key w, alAdd acc.2 w.author w.hours)
      else weekFoldWorklogs ds de issue_key ws acc

/-- The outer loop over `project_data['all_worklogs'].items()`
(src/analytics_service.py:66). -/
def weekFoldIssues (ds de : Int) :
    List (String × List Worklog) → List (String × List Worklog) × List (String × ℚ) →
    Option (List (String × List Worklog) × List (String × ℚ))
  | [], acc => some acc
  | (k, ws) :: rest, acc =>
    match weekFoldWorklogs ds de k ws acc with
    | none => none
    | some acc' => weekFoldIssues ds de rest acc'

/-- `estimated_hours` (src/analytics_service.py:82-85): a `defaultdict`
accumulating each task's estimate under its assignee — skipping falsy
(zero) estimates, as `if task['estimated_hours']:` does. -/
def buildEstimated (tasks : List TaskNoLog) : List (String × ℚ) :=
  tasks.foldl (fun m t => if t.estimated_hours ≠ 0 then alAdd m t.assignee t.estimated_hours else m) []

/-- `total_worked_hours` (src/analytics_service.py:87-90): start from a copy
of the logged hours and add each estimated entry. -/
def buildTotals (worked est : List (String × ℚ)) : List (String × ℚ) :=
  est.foldl (fun t p => alSet t p.1 (alGetD t p.1 0 + p.2)) worked

/-- The body of the per-week loop (src/analytics_service.py:60-102). -/
def buildWeekStat (pd : ProjectData) (wname : String) (info : WeekInfo) :
    Option WeeklyStat :=
  match weekFoldIssues info.start_date info.end_date pd.all_worklogs ([], []) with
  | none => none
  | some acc =>
    let tasks := pd.tasks_without_worklog.filter (fun t => t.week == wname)
    let est := buildEstimated tasks
    some { worked_hours := acc.2, estimated_as_worked_hours := est,
           total_worked_hours := buildTotals acc.2 est,
           tasks_without_worklog := tasks, total_issues := info.issues_count,
           worklogs := acc.1, start_date := info.start_date,
           end_date := info.end_date }

/-- The per-week loop filling the `weekly_stats` dict. -/
def statsFold (pd : ProjectData) :
    List (String × WeekInfo) → List (String × WeeklyStat) →
    Option (List (String × WeeklyStat))
  | [], acc => some acc
  | (w, info) :: rest, acc =>
    match buildWeekStat pd w info with
    | none => none
    | some st => statsFold pd rest (alSet acc w st)

/-- `AnalyticsService._create_weekly_stats(project_data)`: `none` when the
Python call raises (a malformed worklog date), otherwise the per-week
stats dict in insertion order. -/
def create_weekly_stats (pd : ProjectData) : Option (List (String × WeeklyStat)) :=
  statsFold pd pd.weeks_info []

/-! ## `AnalyticsService.analyze_project` (src/analytics_service.py:18-33) -/

/-- The value returned by `analyze_project`: the per-week entries of the
`weekly_stats` dict together with the raw `project_data` bundle the method
attaches under the reserved `'_full_data'` key (which is inserted last, so
the per-week entries keep their order). -/
structure AnalyzeResult where
  weekly : List (String × WeeklyStat)
  full_data : ProjectData
deriving DecidableEq

/-- `analyze_project(project_key, weeks_count)`: collect, aggregate, attach
the raw bundle; any exception propagates (`none`). -/
def analyze_project (current_date : Int) (weeks_count : Nat)
    (fetchIssues : Int × Int → List RawIssue)
    (worklogsOf : String → List RawWorklog) : Option AnalyzeResult :=
  match collect_project_data current_date weeks_count fetchIssues worklogsOf with
  | none => none
  | some pd =>
    match create_weekly_stats pd with
    | none => none
    | some weekly => some { weekly := weekly, full_data := pd }

/-! ## `AnalyticsService.create_hours_report` (src/analytics_service.py:161-185) -/

/-- Round half to even (what `pandas.DataFrame.round` does on exact
values). -/
def roundHalfEven (x : ℚ) : Int :=
  let f := Int.floor x
  let r := x - f
  if r < 1 / 2 then f
  else if 1 / 2 < r then f + 1
  else if f % 2 = 0 then f else f + 1

/-- `df.round(2)` on one value. -/
def round2 (x : ℚ) : ℚ := (roundHalfEven (x * 100) : ℚ) / 100

/-- Stable insertion sort, descending by the key `f` (the model of both
Python's stable `sorted(..., reverse=True)` and of `sort_values`; no
theorem depends on the order of ties in the latter use). -/
def insertDescBy {α : Type} (f : α → ℚ) (x : α) : List α → List α
  | [] => [x]
  | y :: ys => if f y ≤ f x then x :: y :: ys else y :: insertDescBy f x ys

def sortDescBy {α : Type} (f : α → ℚ) : List α → List α
  | [] => []
  | x :: xs => insertDescBy f x (sortDescBy f xs)

/-- The per-week entries of a `weekly_stats` dict: every projector loop
skips the reserved `'_full_data'` key. -/
def weeklyEntries (weekly : List (String × WeeklyStat)) : List (String × WeeklyStat) :=
  weekly.filter (fun p => !(p.1 == "_full_data"))

/-- `all_users` (src/analytics_service.py:163-167): the union of the
`worked_hours` key sets.  Python iterates a `set` in arbitrary order; the
model keeps first-encounter order, and no theorem depends on it. -/
def hoursAllUsers (wks : List (String × WeeklyStat)) : List String :=
  wks.foldl (fun acc p => (p.2.worked_hours.map Prod.fst).foldl
    (fun a k => if a.contains k then a else a ++ [k]) acc) []

/-- One cell of the data region before rounding: column `j` holds
`pd.Series(week_data['worked_hours'])` aligned on the user index, with the
holes filled by `fillna(0.0)`. -/
def hoursRawCell (wks : List (String × WeeklyStat)) (u : String) (j : Nat) : ℚ :=
  match wks[j]? with
  | some p => alGetD p.2.worked_hours u 0
  | none => 0

/-- `df['Всего часов'] = df.sum(axis=1)` for one user (before rounding). -/
def hoursRawTotal (wks : List (String × WeeklyStat)) (u : String) : ℚ :=
  (List.range wks.length).foldl (fun s j => s + hoursRawCell wks u j) 0

/-- The `DataFrame` returned by `create_hours_report`: the user row index
(sorted by total, descending), the week column labels, the cell values
after `round(2)`, the rounded row-total column, and the trailing `'Всего'`
row of column sums. -/
structure HoursReport where
  users : List String
  cols : List String
  cellOf : String → Nat → ℚ
  rowTotalOf : String → ℚ
  totalsRow : List ℚ
deriving Inhabited

/-- `AnalyticsService.create_hours_report(weekly_stats)`. -/
def create_hours_report (weekly : List (String × WeeklyStat)) : HoursReport :=
  let wks := weeklyEntries weekly
  let users := sortDescBy (hoursRawTotal wks) (hoursAllUsers wks)
  { users := users
    cols := wks.map (fun p => p.1 ++ " (ч)")
    cellOf := fun u j => round2 (hoursRawCell wks u j)
    rowTotalOf := fun u => round2 (hoursRawTotal wks u)
    totalsRow := (List.range wks.length).map
        (fun j => users.foldl (fun s u => s + round2 (hoursRawCell wks u j)) 0)
      ++ [users.foldl (fun s u => s + round2 (hoursRawTotal wks u)) 0] }

/-! ## `AnalyticsService.create_no_worklog_report` (src/analytics_service.py:187-194) -/

/-- The rows of the no-worklog report: `all_tasks.extend(...)` across the
per-week entries. -/
def create_no_worklog_report (weekly : List (String × WeeklyStat)) : List TaskNoLog :=
  weekly.foldl (fun acc p =>
    if p.1 == "_full_data" then acc else acc ++ p.2.tasks_without_worklog) []

/-! ## `AnalyticsService.get_user_tasks_details` (src/analytics_service.py:200-276) -/

/-- One element of the `user_tasks` list (either shape of task dict; the
fields absent from one shape are unread there). -/
structure UserTask where
  key : String
  summary : String
  status : String
  hours : ℚ
  worklogs : List Worklog
  estimated : Bool
deriving DecidableEq

/-- A Python dict value (string or number) for modelling subscript access
on the task records. -/
inductive PyVal where
  | str : String → PyVal
  | rat : ℚ → PyVal
deriving DecidableEq

/-- The dict literal `collect_project_data` appends to
`tasks_without_worklog` (src/jira_service.py:121-128), as a key-value
map: these are the only keys a task record carries. -/
def taskDict (t : TaskNoLog) : List (String × PyVal) :=
  [("week", PyVal.str t.week), ("key", PyVal.str t.key),
   ("summary", PyVal.str t.summary), ("assignee", PyVal.str t.assignee),
   ("status", PyVal.str t.status), ("estimated_hours", PyVal.rat t.estimated_hours)]

/-- Lines 217-229: keep the user's worklogs whose (parsed) date falls in
some analysis period; a malformed date on one of the user's entries
raises (`none`). -/
def userWorklogsFilter (periods : List (Int × Int)) (user : String) :
    List Worklog → Option (List Worklog)
  | [] => some []
  | w :: ws =>
    if w.author == user then
      match parseDate w.date with
      | none => none
      | some d =>
        match userWorklogsFilter periods user ws with
        | none => none
        | some rest =>
          if periods.any (fun p => decide (dayOf p.1 ≤ d ∧ d ≤ dayOf p.2)) then
            some (w :: rest)
          else some rest
    else userWorklogsFilter periods user ws

/-- Lines 213-244: one task per issue with at least one of the user's
in-period worklogs (and present in `all_issues`), with the summed hours. -/
def fullTasksLogged (pd : ProjectData) (periods : List (Int × Int)) (user : String) :
    List (String × List Worklog) → Option (List UserTask)
  | [] => some []
  | (ik, ws) :: rest =>
    match userWorklogsFilter periods user ws with
    | none => none
    | some uws =>
      match fullTasksLogged pd periods user rest with
      | none => none
      | some tail =>
        if uws.isEmpty then some tail
        else
          match alGet? pd.all_issues ik with
          | none => some tail
          | some idata =>
            some ({ key := ik, summary := idata.summary, status := idata.status,
                    hours := uws.foldl (fun s w => s + w.hours) 0,
                    worklogs := uws, estimated := false } :: tail)

/-- Lines 246-255: append the user's no-worklog tasks not already present
(`task['estimated_hours'] or 0` equals the value itself for an exact
rational, since only `0` is falsy). -/
def addNoLogTasks (user : String) (tasks : List TaskNoLog) (acc : List UserTask) :
    List UserTask :=
  tasks.foldl (fun acc t =>
    if t.assignee == user && !(acc.any (fun ut => ut.key == t.key)) then
      acc ++ [{ key := t.key, summary := t.summary, status := "Без журнала работ",
                hours := t.estimated_hours, worklogs := [], estimated := true }]
    else acc) acc

/-- The full-data path of `get_user_tasks_details` before the final sort
(lines 202-256): the encounter order of the user's tasks. -/
def userTasksUnsorted (pd : ProjectData) (user : String) : Option (List UserTask) :=
  let periods := pd.weeks_info.map (fun p => (p.2.start_date, p.2.end_date))
  match fullTasksLogged pd periods user pd.all_worklogs with
  | none => none
  | some uts => some (addNoLogTasks user pd.tasks_without_worklog uts)

/-- The fallback path's inner loop (lines 266-274): every record access
goes through the task's actual key set (`taskDict`); a missing key is a
`KeyError`, which aborts the call (`none`). -/
def fallbackWeekTasks (user : String) : List TaskNoLog → Option (List UserTask)
  | [] => some []
  | t :: ts =>
    match alGet? (taskDict t) "Пользователь" with
    | none => none
    | some v =>
      if v == PyVal.str user then
        match alGet? (taskDict t) "Задача", alGet? (taskDict t) "Название",
            alGet? (taskDict t) "Оценка времени (ч)" with
        | some (PyVal.str k), some (PyVal.str s), some (PyVal.rat q) =>
          match fallbackWeekTasks user ts with
          | none => none
          | some rest =>
            some ({ key := k, summary := s, status := "", hours := q,
                    worklogs := [], estimated := true } :: rest)
        | _, _, _ => none
      else fallbackWeekTasks user ts

/-- The fallback path of `get_user_tasks_details` (lines 259-274). -/
def fallbackUserTasks (user : String) :
    List (String × WeeklyStat) → Option (List UserTask)
  | [] => some []
  | (w, st) :: rest =>
    if w == "_full_data" then fallbackUserTasks user rest
    else
      match fallbackWeekTasks user st.tasks_without_worklog with
      | none => none
      | some ts =>
        match fallbackUserTasks user rest with
        | none => none
        | some rest' => some (ts ++ rest')

/-- `AnalyticsService.get_user_tasks_details(weekly_stats, user)`: the
presence of the `'_full_data'` key selects the path; both paths end in
Python's stable `sorted(..., key=hours, reverse=True)`. -/
def get_user_tasks_details (weekly : List (String × WeeklyStat))
    (full_data : Option ProjectData) (user : String) : Option (List UserTask) :=
  match full_data with
  | some pd => (userTasksUnsorted pd user).map (sortDescBy (fun t => t.hours))
  | none => (fallbackUserTasks user weekly).map (sortDescBy (fun t => t.hours))

/-! ## Specification-side helpers used only in theorem statements -/

/-- The hours a single worklog entry contributes to the logged totals of
the week `[ds, de]` for author `u`. -/
def entryContrib (ds de : Int) (u : String) (w : Worklog) : ℚ :=
  match parseDate w.date with
  | some d => if (dayOf ds ≤ d ∧ d ≤ dayOf de) ∧ w.author = u then w.hours else 0
  | none => 0

/-- The total logged hours of author `u` inside the week `[ds, de]` over a
whole `all_worklogs` map. -/
def weekSum (ds de : Int) (u : String) (m : List (String × List Worklog)) : ℚ :=
  (m.map (fun p => (p.2.map (entryContrib ds de u)).sum)).sum

/-- The all-empty weekly stat, default for total functions over stats. -/
def emptyStat : WeeklyStat :=
  { worked_hours := [], estimated_as_worked_hours := [], total_worked_hours := [],
    tasks_without_worklog := [], total_issues := 0, worklogs := [],
    start_date := 0, end_date := 0 }

/-- The head entry of a stats dict (used to phrase closed witnesses). -/
def headStat (stats : List (String × WeeklyStat)) : String × WeeklyStat :=
  stats.headD ("", emptyStat)

/-- The head entry of a `weeks_info` dict (used to phrase closed witnesses). -/
def headWeek (pd : ProjectData) : String × WeekInfo :=
  pd.weeks_info.headD ("", { start_date := 0, end_date := 0, issues_count := 0 })

/-- The task record `collect_project_data` appends for a no-worklog issue
observed in week `wname` (src/jira_service.py:121-128). -/
def taskOf (wname : String) (issue : RawIssue) : TaskNoLog :=
  { week := wname, key := issue.key, summary := issue.summary,
    assignee := (extract_issue_data issue).assignee,
    status := (extract_issue_data issue).status,
    estimated_hours := (extract_issue_data issue).original_estimate_hours }

/-! ## Concrete fixtures for witnesses and counterexamples -/

/-- Monday 2025-01-06, 00:00:00, as seconds since the epoch. -/
def t0 : Int := daysFromCivil 2025 1 6 * 86400

def issueX1 : RawIssue :=
  { key := "X-1", summary := "task one", status := "Done",
    assignee := some "alice", timeoriginalestimate := some 28800 }

def issueX2 : RawIssue :=
  { key := "X-2", summary := "task two", status := "Done",
    assignee := some "bob", timeoriginalestimate := none }

/-- Scenario 1: one week; `X-1` (alice, 8h estimate) has no worklogs, `X-2`
has a 1000-second worklog by bob inside the week. -/
def fetchS1 : Int × Int → List RawIssue := fun _ => [issueX1, issueX2]

def wlofS1 : String → List RawWorklog := fun k =>
  if k == "X-2" then
    [{ author := some "bob", started := "2025-01-07T10:00:00.000+0000",
       timeSpentSeconds := 1000 }]
  else []

def pdS1 : ProjectData := (collect_project_data t0 1 fetchS1 wlofS1).getD emptyProjectData

def statsS1 : List (String × WeeklyStat) := (create_weekly_stats pdS1).getD []

/-- Scenario 2: one week; `X-2` has a 7200-second worklog by bob inside the
week and a 10800-second worklog by bob outside every window. -/
def rawIn : RawWorklog :=
  { author := some "bob", started := "2025-01-07T10:00:00.000+0000",
    timeSpentSeconds := 7200 }

def rawOut : RawWorklog :=
  { author := some "bob", started := "2024-12-01T10:00:00.000+0000",
    timeSpentSeconds := 10800 }

def wlofS2 : String → List RawWorklog := fun k =>
  if k == "X-2" then [rawIn, rawOut] else []

def pdS2 : ProjectData := (collect_project_data t0 1 fetchS1 wlofS2).getD emptyProjectData

def statsS2 : List (String × WeeklyStat) := (create_weekly_stats pdS2).getD []

/-- Scenario 2 with the out-of-window entry removed from the raw corpus. -/
def pdS2' : ProjectData :=
  { pdS2 with all_worklogs := [("X-2", [extract_worklog_data rawIn "X-2"])] }

def statsS2' : List (String × WeeklyStat) := (create_weekly_stats pdS2').getD []

/-- Scenario 3: two weeks; the no-worklog issue `X-1` is returned by the
fetch of both weeks. -/
def fetchS3 : Int × Int → List RawIssue := fun _ => [issueX1]

def wlofNone : String → List RawWorklog := fun _ => []

def pdS3 : ProjectData := (collect_project_data t0 2 fetchS3 wlofNone).getD emptyProjectData

def statsS3 : List (String × WeeklyStat) := (create_weekly_stats pdS3).getD []

/-- Scenario 4: a project-data value whose worklog carries a malformed date
string (as `_create_weekly_stats` would receive from a corrupted corpus). -/
def pdS4 : ProjectData :=
  { weeks_info := [("Неделя 1: 2025-01-06 - 2025-01-12",
      { start_date := t0, end_date := t0 + 604799, issues_count := 1 })],
    all_issues := [("X-2", extract_issue_data issueX2)],
    all_worklogs := [("X-2",
      [{ issue_key := "X-2", author := "bob", date := "garbage", hours := 1 }])],
    users_hours := [],
    tasks_without_worklog := [] }

/-- Scenario 2 user-task fixtures for the per-user detail claims. -/
def utS2 : List UserTask := (userTasksUnsorted pdS2 "bob").getD []

def outS2 : List UserTask := (get_user_tasks_details statsS2 (some pdS2) "bob").getD []

/-! ## Lemmas about the window calculator -/

/-- Closed form of window `i`: its start is midnight of `7 i` days before
the Monday of the reference date's week. -/
theorem calculate_working_weeks_get (cur : Int) (n : Nat) (i : Nat)
    (h : i < (calculate_working_weeks cur n).length) :
    (calculate_working_weeks cur n).get ⟨i, h⟩ =
      ((cur / 86400 - (cur / 86400 + 3) % 7 - 7 * (i : Int)) * 86400,
       (cur / 86400 - (cur / 86400 + 3) % 7 - 7 * (i : Int)) * 86400
         + (6 * 86400 + 86399)) := by
  have hlen : (calculate_working_weeks cur n).length = n := by
    rw [calculate_working_weeks, List.length_map, List.length_range]
  have hi : i < n := hlen ▸ h
  have hr : i < (List.range n).length := by rwa [List.length_range]
  simp only [calculate_working_weeks, List.get_eq_getElem, List.getElem_map,
    List.getElem_range, midnightOf, pyWeekday, dayOf, Prod.mk.injEq]
  constructor
  · omega
  · omega

theorem calculate_working_weeks_length (cur : Int) (n : Nat) :
    (calculate_working_weeks cur n).length = n := by
  rw [calculate_working_weeks, List.length_map, List.length_range]

/-- C3: for every reference date and every `count >= 1`,
`calculate_working_weeks` returns exactly `count` windows; every window
starts on a Monday at 00:00:00 and ends exactly 6 days 23:59:59 after its
start; consecutive windows are contiguous (the later-listed window ends one
second before the earlier-listed one starts); windows are strictly
descending by start date and pairwise non-overlapping; and the first window
contains the reference date. -/
theorem claim_C3_window_calculator (current_date : Int) (num_weeks : Nat)
    (hn : 1 ≤ num_weeks) :
    (calculate_working_weeks current_date num_weeks).length = num_weeks ∧
    (∀ i (h : i < (calculate_working_weeks current_date num_weeks).length),
      pyWeekday ((calculate_working_weeks current_date num_weeks).get ⟨i, h⟩).1 = 0 ∧
      ((calculate_working_weeks current_date num_weeks).get ⟨i, h⟩).1 % 86400 = 0 ∧
      ((calculate_working_weeks current_date num_weeks).get ⟨i, h⟩).2
        = ((calculate_working_weeks current_date num_weeks).get ⟨i, h⟩).1
          + (6 * 86400 + 86399)) ∧
    (∀ i (h1 : i + 1 < (calculate_working_weeks current_date num_weeks).length)
        (h0 : i < (calculate_working_weeks current_date num_weeks).length),
      ((calculate_working_weeks current_date num_weeks).get ⟨i + 1, h1⟩).2 + 1
        = ((calculate_working_weeks current_date num_weeks).get ⟨i, h0⟩).1) ∧
    (∀ i j (hi : i < (calculate_working_weeks current_date num_weeks).length)
        (hj : j < (calculate_working_weeks current_date num_weeks).length),
      i < j →
      ((calculate_working_weeks current_date num_weeks).get ⟨j, hj⟩).2
        < ((calculate_working_weeks current_date num_weeks).get ⟨i, hi⟩).1) ∧
    (∀ h0 : 0 < (calculate_working_weeks current_date num_weeks).length,
      ((calculate_working_weeks current_date num_weeks).get ⟨0, h0⟩).1 ≤ current_date ∧
      current_date ≤ ((calculate_working_weeks current_date num_weeks).get ⟨0, h0⟩).2) := by
  refine ⟨calculate_working_weeks_length current_date num_weeks, ?_, ?_, ?_, ?_⟩
  · intro i h
    rw [calculate_working_weeks_get current_date num_weeks i h]
    refine ⟨?_, ?_, ?_⟩
    · rw [pyWeekday, dayOf]; omega
    · omega
    · omega
  · intro i h1 h0
    rw [calculate_working_weeks_get current_date num_weeks (i + 1) h1,
      calculate_working_weeks_get current_date num_weeks i h0]
    push_cast
    omega
  · intro i j hi hj hij
    rw [calculate_working_weeks_get current_date num_weeks j hj,
      calculate_working_weeks_get current_date num_weeks i hi]
    have : (i : Int) < (j : Int) := by exact_mod_cast hij
    omega
  · intro h0
    rw [calculate_working_weeks_get current_date num_weeks 0 h0]
    omega

/-- Witness for C3 at a concrete reference date (some second during
Wednesday 2025-01-08) and `count = 2`. -/
theorem claim_C3_window_calculator_witness :
    1 ≤ 2 ∧ (calculate_working_weeks (daysFromCivil 2025 1 8 * 86400 + 3600) 2).length = 2 :=
  ⟨by decide, (claim_C3_window_calculator (daysFromCivil 2025 1 8 * 86400 + 3600) 2 (by decide)).1⟩

/-! ## Association-list lemmas -/

theorem strBeq_comm (a b : String) : (a == b) = (b == a) := by
  by_cases h : a = b
  · simp [h]
  · simp [h, Ne.symm h]

@[simp] theorem alContains_nil {α : Type} (k : String) :
    alContains ([] : List (String × α)) k = false := rfl

@[simp] theorem alContains_cons {α : Type} (p : String × α) (m : List (String × α))
    (k : String) : alContains (p :: m) k = (p.1 == k || alContains m k) := by
  simp [alContains]

@[simp] theorem alGet?_nil {α : Type} (k : String) :
    alGet? ([] : List (String × α)) k = none := rfl

@[simp] theorem alGet?_cons {α : Type} (p : String × α) (m : List (String × α))
    (k : String) :
    alGet? (p :: m) k = if p.1 = k then some p.2 else alGet? m k := by
  by_cases h : p.1 = k
  · simp only [h, if_true]
    unfold alGet?
    rw [List.find?_cons_of_pos]
    · rfl
    · simp [h]
  · simp only [h, if_false]
    unfold alGet?
    rw [List.find?_cons_of_neg]
    simp [h]

theorem alContains_append {α : Type} (m₁ m₂ : List (String × α)) (k : String) :
    alContains (m₁ ++ m₂) k = (alContains m₁ k || alContains m₂ k) := by
  simp [alContains]

theorem alGet?_append {α : Type} (m₁ m₂ : List (String × α)) (k : String) :
    alGet? (m₁ ++ m₂) k = ((alGet? m₁ k).or (alGet? m₂ k)) := by
  rw [alGet?, alGet?, alGet?, List.find?_append]
  cases List.find? (fun p => p.1 == k) m₁ <;> simp

theorem alGet?_eq_none_of_not_contains {α : Type} {m : List (String × α)} {k : String}
    (h : alContains m k = false) : alGet? m k = none := by
  induction m with
  | nil => rfl
  | cons p m ih =>
    simp only [alContains_cons, Bool.or_eq_false_iff, beq_eq_false_iff_ne] at h
    simp [alGet?_cons, h.1, ih h.2]

theorem alContains_of_alGet?_eq_some {α : Type} {m : List (String × α)} {k : String}
    {v : α} (h : alGet? m k = some v) : alContains m k = true := by
  by_cases hc : alContains m k
  · exact hc
  · rw [alGet?_eq_none_of_not_contains (by simpa using hc)] at h
    exact absurd h (by simp)

/-- The in-place update of `alSet` leaves the key list unchanged. -/
theorem setMap_keys {α : Type} (m : List (String × α)) (k : String) (v : α) :
    (m.map (fun p => if p.1 == k then (k, v) else p)).map Prod.fst = m.map Prod.fst := by
  induction m with
  | nil => rfl
  | cons p m ih =>
    simp only [List.map_cons, ih, List.cons.injEq, and_true]
    by_cases hp : p.1 = k
    · simp [hp]
    · simp [hp]

theorem alContains_eq_keys_any {α : Type} (m : List (String × α)) (u : String) :
    alContains m u = (m.map Prod.fst).any (fun x => x == u) := by
  induction m with
  | nil => rfl
  | cons p m ih => simp [ih]

theorem alContains_setMap {α : Type} (m : List (String × α)) (k u : String) (v : α) :
    alContains (m.map (fun p => if p.1 == k then (k, v) else p)) u = alContains m u := by
  rw [alContains_eq_keys_any, setMap_keys, ← alContains_eq_keys_any]

theorem alGet?_setMap_self {α : Type} {m : List (String × α)} {k : String} (v : α)
    (hc : alContains m k = true) :
    alGet? (m.map (fun p => if p.1 == k then (k, v) else p)) k = some v := by
  induction m with
  | nil => simp at hc
  | cons p m ih =>
    by_cases hp : p.1 = k
    · simp [hp]
    · simp only [alContains_cons, Bool.or_eq_true, beq_iff_eq, hp, false_or] at hc
      have ih' := ih hc
      simp only [beq_iff_eq] at ih'
      simp [hp, ih']

theorem alGet?_setMap_ne {α : Type} {m : List (String × α)} {k u : String} (v : α)
    (h : u ≠ k) :
    alGet? (m.map (fun p => if p.1 == k then (k, v) else p)) u = alGet? m u := by
  induction m with
  | nil => rfl
  | cons p m ih =>
    have ih' := ih
    simp only [beq_iff_eq] at ih'
    by_cases hp : p.1 = k
    · have hpu : p.1 ≠ u := by rw [hp]; exact (Ne.symm h)
      simp [hp, Ne.symm h, hpu, ih']
    · by_cases hpu : p.1 = u
      · simp [hp, hpu, h]
      · simp [hp, hpu, ih']

theorem alGet?_alSet_self {α : Type} (m : List (String × α)) (k : String) (v : α) :
    alGet? (alSet m k v) k = some v := by
  rw [alSet]
  by_cases hc : alContains m k
  · simp only [hc, if_true]
    exact alGet?_setMap_self v hc
  · simp only [hc, if_false, Bool.false_eq_true]
    rw [alGet?_append, alGet?_eq_none_of_not_contains (by simpa using hc)]
    simp

theorem alGet?_alSet_ne {α : Type} (m : List (String × α)) (k u : String) (v : α)
    (h : u ≠ k) :
    alGet? (alSet m k v) u = alGet? m u := by
  rw [alSet]
  by_cases hc : alContains m k
  · simp only [hc, if_true]
    exact alGet?_setMap_ne v h
  · simp only [hc, if_false, Bool.false_eq_true]
    rw [alGet?_append]
    simp [Ne.symm h]

theorem alGetD_alSet_self {α : Type} (m : List (String × α)) (k : String) (v d : α) :
    alGetD (alSet m k v) k d = v := by
  rw [alGetD, alGet?_alSet_self]; rfl

theorem alGetD_alSet_ne {α : Type} (m : List (String × α)) (k u : String) (v d : α)
    (h : u ≠ k) : alGetD (alSet m k v) u d = alGetD m u d := by
  rw [alGetD, alGet?_alSet_ne m k u v h, alGetD]

theorem alContains_alSet {α : Type} (m : List (String × α)) (k u : String) (v : α) :
    alContains (alSet m k v) u = (alContains m u || u == k) := by
  rw [alSet]
  by_cases hc : alContains m k
  · simp only [hc, if_true]
    rw [alContains_setMap]
    by_cases h : u = k
    · subst h
      simp [hc]
    · simp [h]
  · simp only [hc, if_false, Bool.false_eq_true]
    rw [alContains_append]
    simp only [alContains_cons, alContains_nil, Bool.or_false]
    rw [strBeq_comm]

/-- `alSet` keeps the key list unchanged on a present key and appends the
key otherwise. -/
theorem alSet_keys {α : Type} (m : List (String × α)) (k : String) (v : α) :
    (alSet m k v).map Prod.fst =
      if alContains m k then m.map Prod.fst else m.map Prod.fst ++ [k] := by
  rw [alSet]
  by_cases hc : alContains m k
  · simp only [hc, if_true]
    exact setMap_keys m k v
  · simp [hc]

theorem alSet_keys_nodup {α : Type} {m : List (String × α)} (k : String) (v : α)
    (h : (m.map Prod.fst).Nodup) : ((alSet m k v).map Prod.fst).Nodup := by
  rw [alSet_keys]
  by_cases hc : alContains m k
  · simpa [hc] using h
  · simp only [hc, if_false, Bool.false_eq_true]
    rw [List.nodup_append]
    refine ⟨h, List.nodup_singleton k, ?_⟩
    intro x hx
    simp only [List.mem_singleton]
    intro hxk
    subst hxk
    rw [alContains_eq_keys_any] at hc
    simp only [List.any_eq_true, beq_iff_eq] at hc
    exact hc ⟨x, hx, rfl⟩

theorem alContains_iff_mem_keys {α : Type} (m : List (String × α)) (u : String) :
    alContains m u = true ↔ u ∈ m.map Prod.fst := by
  rw [alContains_eq_keys_any]
  simp only [List.any_eq_true, beq_iff_eq]
  constructor
  · rintro ⟨x, hx, rfl⟩
    exact hx
  · intro h
    exact ⟨u, h, rfl⟩

theorem alGetD_eq_default_of_not_contains {α : Type} {m : List (String × α)}
    {k : String} (d : α) (h : alContains m k = false) : alGetD m k d = d := by
  rw [alGetD, alGet?_eq_none_of_not_contains h]
  rfl

theorem alGetD_alAdd (m : List (String × ℚ)) (k u : String) (v : ℚ) :
    alGetD (alAdd m k v) u 0 = alGetD m u 0 + (if u = k then v else 0) := by
  rw [alAdd]
  by_cases h : u = k
  · subst h
    rw [alGetD_alSet_self]
    simp
  · rw [alGetD_alSet_ne _ _ _ _ _ h]
    simp [h]

theorem alContains_alAdd (m : List (String × ℚ)) (k u : String) (v : ℚ) :
    alContains (alAdd m k v) u = (alContains m u || u == k) := by
  rw [alAdd, alContains_alSet]

theorem alAdd_keys_nodup {m : List (String × ℚ)} (k : String) (v : ℚ)
    (h : (m.map Prod.fst).Nodup) : ((alAdd m k v).map Prod.fst).Nodup :=
  alSet_keys_nodup k _ h

theorem alGetD_alPush_self {α : Type} (m : List (String × List α)) (k : String) (w : α) :
    alGetD (alPush m k w) k [] = alGetD m k [] ++ [w] := by
  rw [alPush, alGetD_alSet_self]

theorem alGetD_alPush_ne {α : Type} (m : List (String × List α)) (k u : String) (w : α)
    (h : u ≠ k) : alGetD (alPush m k w) u [] = alGetD m u [] := by
  rw [alPush, alGetD_alSet_ne _ _ _ _ _ h]

theorem mem_alGetD_alPush {α : Type} {m : List (String × List α)} {k : String} {e : α}
    (u : String) (w : α) (h : e ∈ alGetD m k []) : e ∈ alGetD (alPush m u w) k [] := by
  by_cases hu : k = u
  · subst hu
    rw [alGetD_alPush_self]
    exact List.mem_append_left _ h
  · rwa [alGetD_alPush_ne _ _ _ _ hu]

theorem alContains_alPush {α : Type} (m : List (String × List α)) (k u : String) (w : α) :
    alContains (alPush m k w) u = (alContains m u || u == k) := by
  rw [alPush, alContains_alSet]

/-! ## Lemmas about `buildTotals` and `buildEstimated` -/

theorem buildTotals_getD (est : List (String × ℚ)) (worked : List (String × ℚ))
    (u : String) (hnd : (est.map Prod.fst).Nodup) :
    alGetD (buildTotals worked est) u 0 = alGetD worked u 0 + alGetD est u 0 := by
  induction est generalizing worked with
  | nil => simp [buildTotals, alGetD, alGet?]
  | cons p rest ih =>
    obtain ⟨k, h⟩ := p
    simp only [List.map_cons, List.nodup_cons] at hnd
    have step : buildTotals worked ((k, h) :: rest)
        = buildTotals (alSet worked k (alGetD worked k 0 + h)) rest := rfl
    rw [step, ih _ hnd.2]
    by_cases hu : u = k
    · subst hu
      rw [alGetD_alSet_self]
      have : alContains rest u = false := by
        by_contra hc
        simp only [Bool.not_eq_false] at hc
        exact hnd.1 ((alContains_iff_mem_keys rest u).mp hc)
      rw [alGetD_eq_default_of_not_contains _ this]
      simp [alGetD, alGet?]
    · rw [alGetD_alSet_ne _ _ _ _ _ hu]
      have : alGetD ((k, h) :: rest) u 0 = alGetD rest u 0 := by
        simp [alGetD, Ne.symm hu]
      rw [this]

theorem buildTotals_contains (est : List (String × ℚ)) (worked : List (String × ℚ))
    (u : String) :
    alContains (buildTotals worked est) u = true ↔
      (alContains worked u = true ∨ alContains est u = true) := by
  induction est generalizing worked with
  | nil => simp [buildTotals]
  | cons p rest ih =>
    obtain ⟨k, h⟩ := p
    have step : buildTotals worked ((k, h) :: rest)
        = buildTotals (alSet worked k (alGetD worked k 0 + h)) rest := rfl
    rw [step, ih]
    rw [alContains_alSet]
    simp only [alContains_cons, Bool.or_eq_true, beq_iff_eq]
    constructor
    · rintro (⟨h1 | h1⟩ | h1)
      · exact Or.inl h1
      · exact Or.inr (Or.inl h1.symm)
      · exact Or.inr (Or.inr h1)
    · rintro (h1 | h1 | h1)
      · exact Or.inl (Or.inl h1)
      · exact Or.inl (Or.inr h1.symm)
      · exact Or.inr h1

theorem buildEstimated_aux_nodup (tasks : List TaskNoLog) (acc : List (String × ℚ))
    (hacc : (acc.map Prod.fst).Nodup) :
    ((tasks.foldl (fun m t =>
        if t.estimated_hours ≠ 0 then alAdd m t.assignee t.estimated_hours else m)
      acc).map Prod.fst).Nodup := by
  induction tasks generalizing acc with
  | nil => exact hacc
  | cons t ts ih =>
    simp only [List.foldl_cons]
    by_cases h : t.estimated_hours ≠ 0
    · rw [if_pos h]
      exact ih _ (alAdd_keys_nodup _ _ hacc)
    · rw [if_neg h]
      exact ih _ hacc

theorem buildEstimated_keys_nodup (tasks : List TaskNoLog) :
    ((buildEstimated tasks).map Prod.fst).Nodup :=
  buildEstimated_aux_nodup tasks [] List.nodup_nil

/-! ## Lemmas about `statsFold` and `buildWeekStat` -/

theorem mem_alSet {α : Type} {m : List (String × α)} {k : String} {v : α}
    {p : String × α} (h : p ∈ alSet m k v) : p = (k, v) ∨ p ∈ m := by
  rw [alSet] at h
  by_cases hc : alContains m k
  · simp only [hc, if_true] at h
    obtain ⟨q, hq, hqe⟩ := List.mem_map.mp h
    by_cases hqk : q.1 = k
    · simp only [hqk] at hqe
      simp only [beq_self_eq_true, if_true] at hqe
      exact Or.inl hqe.symm
    · right
      have : (q.1 == k) = false := by simpa using hqk
      rw [this] at hqe
      simp only [Bool.false_eq_true, if_false] at hqe
      rwa [← hqe]
  · simp only [hc, if_false, Bool.false_eq_true] at h
    rcases List.mem_append.mp h with h1 | h1
    · exact Or.inr h1
    · exact Or.inl (List.mem_singleton.mp h1)

/-- Every option produced by `buildWeekStat` has the documented shape. -/
theorem buildWeekStat_inv {pd : ProjectData} {w : String} {info : WeekInfo}
    {st : WeeklyStat} (h : buildWeekStat pd w info = some st) :
    ∃ acc, weekFoldIssues info.start_date info.end_date pd.all_worklogs ([], []) = some acc ∧
      st = { worked_hours := acc.2,
             estimated_as_worked_hours :=
               buildEstimated (pd.tasks_without_worklog.filter (fun t => t.week == w)),
             total_worked_hours := buildTotals acc.2
               (buildEstimated (pd.tasks_without_worklog.filter (fun t => t.week == w))),
             tasks_without_worklog := pd.tasks_without_worklog.filter (fun t => t.week == w),
             total_issues := info.issues_count, worklogs := acc.1,
             start_date := info.start_date, end_date := info.end_date } := by
  rw [buildWeekStat] at h
  rcases hacc : weekFoldIssues info.start_date info.end_date pd.all_worklogs ([], []) with _ | acc
  · rw [hacc] at h
    exact absurd h (by simp)
  · rw [hacc] at h
    refine ⟨acc, rfl, ?_⟩
    exact (Option.some.injEq _ _ ▸ h).symm

/-- Every entry of a `statsFold` result that does not come from the
accumulator was built by `buildWeekStat` on some recorded week. -/
theorem statsFold_mem (pd : ProjectData) :
    ∀ (ws : List (String × WeekInfo)) (acc out : List (String × WeeklyStat)),
      statsFold pd ws acc = some out →
      (∀ p ∈ acc, ∃ info, buildWeekStat pd p.1 info = some p.2) →
      ∀ p ∈ out, ∃ info, buildWeekStat pd p.1 info = some p.2 := by
  intro ws
  induction ws with
  | nil =>
    intro acc out h hacc
    rw [statsFold] at h
    cases h
    exact hacc
  | cons q rest ih =>
    intro acc out h hacc
    obtain ⟨w, info⟩ := q
    rw [statsFold] at h
    rcases hb : buildWeekStat pd w info with _ | st
    · rw [hb] at h
      exact absurd h (by simp)
    · rw [hb] at h
      refine ih _ _ h ?_
      intro p hp
      rcases mem_alSet hp with h1 | h1
      · subst h1
        exact ⟨info, hb⟩
      · exact hacc p h1

/-- Name containment is monotone along `statsFold`. -/
theorem statsFold_contains_mono (pd : ProjectData) :
    ∀ (ws : List (String × WeekInfo)) (acc out : List (String × WeeklyStat)) (u : String),
      statsFold pd ws acc = some out →
      alContains acc u = true → alContains out u = true := by
  intro ws
  induction ws with
  | nil =>
    intro acc out u h hu
    rw [statsFold] at h
    cases h
    exact hu
  | cons q rest ih =>
    intro acc out u h hu
    obtain ⟨w, info⟩ := q
    rw [statsFold] at h
    rcases hb : buildWeekStat pd w info with _ | st
    · rw [hb] at h
      exact absurd h (by simp)
    · rw [hb] at h
      refine ih _ _ _ h ?_
      rw [alContains_alSet, hu]
      rfl

/-- Every week recorded in `weeks_info` has an entry in the stats dict. -/
theorem statsFold_contains_of_mem (pd : ProjectData) :
    ∀ (ws : List (String × WeekInfo)) (acc out : List (String × WeeklyStat))
      (w : String) (info : WeekInfo),
      statsFold pd ws acc = some out → (w, info) ∈ ws →
      alContains out w = true := by
  intro ws
  induction ws with
  | nil =>
    intro acc out w info _ hmem
    exact absurd hmem (List.not_mem_nil _)
  | cons q rest ih =>
    intro acc out w info h hmem
    obtain ⟨w', info'⟩ := q
    rw [statsFold] at h
    rcases hb : buildWeekStat pd w' info' with _ | st
    · rw [hb] at h
      exact absurd h (by simp)
    · rw [hb] at h
      rcases List.mem_cons.mp hmem with h1 | h1
      · obtain ⟨hw, _⟩ := Prod.mk.injEq .. ▸ h1
        subst hw
        refine statsFold_contains_mono pd rest _ _ _ h ?_
        rw [alContains_alSet]
        simp
      · exact ih _ _ _ info h h1

/-- The stats dict always has duplicate-free keys (it is a Python dict). -/
theorem statsFold_keys_nodup (pd : ProjectData) :
    ∀ (ws : List (String × WeekInfo)) (acc out : List (String × WeeklyStat)),
      statsFold pd ws acc = some out →
      (acc.map Prod.fst).Nodup → (out.map Prod.fst).Nodup := by
  intro ws
  induction ws with
  | nil =>
    intro acc out h hacc
    rw [statsFold] at h
    cases h
    exact hacc
  | cons q rest ih =>
    intro acc out h hacc
    obtain ⟨w, info⟩ := q
    rw [statsFold] at h
    rcases hb : buildWeekStat pd w info with _ | st
    · rw [hb] at h
      exact absurd h (by simp)
    · rw [hb] at h
      exact ih _ _ h (alSet_keys_nodup _ _ hacc)

/-- C2: in every `WeeklyStat` produced by the aggregation, the key set of
`total_worked_hours` is the union of the key sets of `worked_hours`
(logged) and `estimated_as_worked_hours` (estimated fallback), and for
every author present in either source map the total equals the logged
hours (0 if absent) plus the estimated fallback hours (0 if absent). -/
theorem claim_C2_total_is_logged_plus_estimated
    (pd : ProjectData) (stats : List (String × WeeklyStat)) (w : String)
    (st : WeeklyStat) (u : String)
    (hstats : create_weekly_stats pd = some stats)
    (hmem : (w, st) ∈ stats) :
    (alContains st.total_worked_hours u = true ↔
      (alContains st.worked_hours u = true ∨
       alContains st.estimated_as_worked_hours u = true)) ∧
    ((alContains st.worked_hours u = true ∨
      alContains st.estimated_as_worked_hours u = true) →
      alGetD st.total_worked_hours u 0
        = alGetD st.worked_hours u 0 + alGetD st.estimated_as_worked_hours u 0) := by
  obtain ⟨info, hb⟩ := statsFold_mem pd pd.weeks_info [] stats hstats
    (by intro p hp; exact absurd hp (List.not_mem_nil _)) (w, st) hmem
  have hb' : buildWeekStat pd w info = some st := hb
  obtain ⟨acc, _, hshape⟩ := buildWeekStat_inv hb'
  subst hshape
  refine ⟨buildTotals_contains _ _ _, fun _ => ?_⟩
  exact buildTotals_getD _ _ _ (buildEstimated_keys_nodup _)


/-! ## Small helpers for phrasing closed witnesses -/

theorem opt_eq_some_getD {α : Type} {o : Option α} (d : α) (h : o.isSome = true) :
    o = some (o.getD d) := by
  cases o with
  | none => simp at h
  | some x => rfl

theorem headD_mem {α : Type} {l : List α} (d : α) (h : l ≠ []) : l.headD d ∈ l := by
  cases l with
  | nil => exact absurd rfl h
  | cons x xs => exact List.mem_cons_self _ _

set_option maxRecDepth 2000 in
/-- Witness for C2: scenario 1, week 1, author `alice` (present only in the
estimated map; total 8 = 0 + 8). -/
theorem claim_C2_witness :
    alGetD (headStat statsS1).2.total_worked_hours "alice" 0
      = alGetD (headStat statsS1).2.worked_hours "alice" 0
        + alGetD (headStat statsS1).2.estimated_as_worked_hours "alice" 0 :=
  (claim_C2_total_is_logged_plus_estimated pdS1 statsS1
    (headStat statsS1).1 (headStat statsS1).2 "alice"
    (opt_eq_some_getD [] (by with_unfolding_all decide))
    (headD_mem ("", emptyStat) (by with_unfolding_all decide))).2
    (Or.inr (by with_unfolding_all decide))

/-! ## Error propagation of malformed worklog dates -/

theorem weekFoldWorklogs_none (ds de : Int) (k : String) :
    ∀ (ws : List Worklog) acc (e : Worklog), e ∈ ws → parseDate e.date = none →
      weekFoldWorklogs ds de k ws acc = none := by
  intro ws
  induction ws with
  | nil =>
    intro acc e hmem _
    exact absurd hmem (List.not_mem_nil _)
  | cons w ws ih =>
    intro acc e hmem hbad
    rcases List.mem_cons.mp hmem with h1 | h1
    · subst h1
      simp only [weekFoldWorklogs, hbad]
    · rcases hp : parseDate w.date with _ | d
      · simp only [weekFoldWorklogs, hp]
      · simp only [weekFoldWorklogs, hp]
        by_cases hin : dayOf ds ≤ d ∧ d ≤ dayOf de
        · rw [if_pos hin]
          exact ih _ e h1 hbad
        · rw [if_neg hin]
          exact ih _ e h1 hbad

theorem weekFoldIssues_none (ds de : Int) :
    ∀ (m : List (String × List Worklog)) acc (k : String) (l : List Worklog)
      (e : Worklog), (k, l) ∈ m → e ∈ l → parseDate e.date = none →
      weekFoldIssues ds de m acc = none := by
  intro m
  induction m with
  | nil =>
    intro acc k l e hmem _ _
    exact absurd hmem (List.not_mem_nil _)
  | cons q m ih =>
    intro acc k l e hmem he hbad
    obtain ⟨k', l'⟩ := q
    rcases List.mem_cons.mp hmem with h1 | h1
    · obtain ⟨hk, hl⟩ := Prod.mk.injEq .. ▸ h1
      subst hk; subst hl
      simp only [weekFoldIssues, weekFoldWorklogs_none ds de k l acc e he hbad]
    · rcases hw : weekFoldWorklogs ds de k' l' acc with _ | acc'
      · simp only [weekFoldIssues, hw]
      · simp only [weekFoldIssues, hw]
        exact ih _ k l e h1 he hbad

theorem buildWeekStat_none (pd : ProjectData) (w : String) (info : WeekInfo)
    (k : String) (l : List Worklog) (e : Worklog)
    (hmem : (k, l) ∈ pd.all_worklogs) (he : e ∈ l)
    (hbad : parseDate e.date = none) : buildWeekStat pd w info = none := by
  simp only [buildWeekStat,
    weekFoldIssues_none info.start_date info.end_date pd.all_worklogs _ k l e hmem he hbad]

/-- C6: the failure semantics of the aggregation are all-or-nothing.  If
some work-log entry in the corpus carries a malformed date string then
`_create_weekly_stats` raises (returns nothing) as soon as there is at
least one analysis window, so no partial per-week statistics escape; and
whenever the call does return, the result holds a stat for every recorded
window. -/
theorem claim_C6_malformed_dates_abort_aggregation (pd : ProjectData) :
    (∀ (k : String) (l : List Worklog) (e : Worklog), pd.weeks_info ≠ [] →
      (k, l) ∈ pd.all_worklogs → e ∈ l → parseDate e.date = none →
      create_weekly_stats pd = none) ∧
    (∀ stats, create_weekly_stats pd = some stats →
      ∀ (w : String) (info : WeekInfo), (w, info) ∈ pd.weeks_info →
      alContains stats w = true) := by
  constructor
  · intro k l e hweeks hmem he hbad
    rw [create_weekly_stats]
    rcases hq : pd.weeks_info with _ | ⟨⟨w, info⟩, rest⟩
    · exact absurd hq hweeks
    · simp only [statsFold, buildWeekStat_none pd w info k l e hmem he hbad]
  · intro stats hstats w info hmem
    exact statsFold_contains_of_mem pd pd.weeks_info [] stats w info hstats hmem

set_option maxRecDepth 2000 in
/-- Witness for C6: scenario 4 (a malformed `"garbage"` date, one window)
aborts; scenario 1 returns a stat for its single recorded window. -/
theorem claim_C6_witness :
    create_weekly_stats pdS4 = none ∧
    alContains statsS1 (headWeek pdS1).1 = true :=
  ⟨(claim_C6_malformed_dates_abort_aggregation pdS4).1 "X-2"
      [{ issue_key := "X-2", author := "bob", date := "garbage", hours := 1 }]
      { issue_key := "X-2", author := "bob", date := "garbage", hours := 1 }
      (by decide) (by with_unfolding_all decide) (by with_unfolding_all decide)
      (by decide),
   (claim_C6_malformed_dates_abort_aggregation pdS1).2 statsS1
      (opt_eq_some_getD [] (by with_unfolding_all decide))
      (headWeek pdS1).1 (headWeek pdS1).2
      (headD_mem ("", { start_date := 0, end_date := 0, issues_count := 0 })
        (by with_unfolding_all decide))⟩

/-! ## Invariants of `collect_project_data` -/

theorem alContains_exists_mem {α : Type} {m : List (String × α)} {u : String}
    (h : alContains m u = true) : ∃ v, (u, v) ∈ m := by
  rw [alContains, List.any_eq_true] at h
  obtain ⟨p, hp, hpe⟩ := h
  have : p.1 = u := by simpa using hpe
  exact ⟨p.2, by rwa [← this, Prod.mk.eta]⟩

theorem processWorklog1_cases (k : String) (ds de : Int) (st : ProjectData)
    (w : RawWorklog) (st' : ProjectData)
    (h : processWorklog1 k ds de st w = some st') :
    st'.weeks_info = st.weeks_info ∧ st'.all_issues = st.all_issues ∧
    st'.tasks_without_worklog = st.tasks_without_worklog ∧
    st'.all_worklogs = alPush st.all_worklogs k (extract_worklog_data w k) := by
  rcases hp : parseDate (pyTake10 w.started) with _ | d
  · rw [processWorklog1, hp] at h
    exact absurd h (by simp)
  · rw [processWorklog1, hp] at h
    simp only [Option.map_some', Option.some.injEq] at h
    by_cases hin : dayOf ds ≤ d ∧ d ≤ dayOf de
    · rw [if_pos hin] at h
      rw [← h]
      exact ⟨rfl, rfl, rfl, rfl⟩
    · rw [if_neg hin] at h
      rw [← h]
      exact ⟨rfl, rfl, rfl, rfl⟩

theorem processWorklogs_state (k : String) (ds de : Int) :
    ∀ (ws : List RawWorklog) (st st' : ProjectData),
      processWorklogs k ds de ws st = some st' →
      st'.weeks_info = st.weeks_info ∧ st'.all_issues = st.all_issues ∧
      st'.tasks_without_worklog = st.tasks_without_worklog := by
  intro ws
  induction ws with
  | nil =>
    intro st st' h
    simp only [processWorklogs, Option.some.injEq] at h
    rw [← h]
    exact ⟨rfl, rfl, rfl⟩
  | cons w ws ih =>
    intro st st' h
    simp only [processWorklogs] at h
    rcases h1 : processWorklog1 k ds de st w with _ | st₁
    · rw [h1] at h
      exact absurd h (by simp)
    · rw [h1] at h
      obtain ⟨e1, e2, e3, _⟩ := processWorklog1_cases _ _ _ _ _ _ h1
      obtain ⟨f1, f2, f3⟩ := ih _ _ h
      exact ⟨f1.trans e1, f2.trans e2, f3.trans e3⟩

theorem processWorklogs_worklogs (k : String) (ds de : Int) :
    ∀ (ws : List RawWorklog) (st st' : ProjectData),
      processWorklogs k ds de ws st = some st' → ∀ u,
      alGetD st'.all_worklogs u [] = alGetD st.all_worklogs u [] ++
        (if u = k then ws.map (fun w => extract_worklog_data w k) else []) := by
  intro ws
  induction ws with
  | nil =>
    intro st st' h u
    simp only [processWorklogs, Option.some.injEq] at h
    rw [← h]
    simp
  | cons w ws ih =>
    intro st st' h u
    simp only [processWorklogs] at h
    rcases h1 : processWorklog1 k ds de st w with _ | st₁
    · rw [h1] at h
      exact absurd h (by simp)
    · rw [h1] at h
      obtain ⟨_, _, _, e4⟩ := processWorklog1_cases _ _ _ _ _ _ h1
      rw [ih _ _ h u, e4]
      by_cases hu : u = k
      · subst hu
        rw [alGetD_alPush_self]
        simp
      · rw [alGetD_alPush_ne _ _ _ _ hu]
        simp [hu]

theorem processIssue_cases (worklogsOf : String → List RawWorklog) (wname : String)
    (ds de : Int) (st : ProjectData) (issue : RawIssue) (st' : ProjectData)
    (h : processIssue worklogsOf wname ds de st issue = some st') :
    (alContains st.all_issues issue.key = true ∧ st' = st) ∨
    (alContains st.all_issues issue.key = false ∧
     st'.weeks_info = st.weeks_info ∧
     st'.all_issues = alSet st.all_issues issue.key (extract_issue_data issue) ∧
     ((worklogsOf issue.key = [] ∧
        st'.tasks_without_worklog = st.tasks_without_worklog ++ [taskOf wname issue] ∧
        st'.all_worklogs = st.all_worklogs) ∨
      (worklogsOf issue.key ≠ [] ∧
        st'.tasks_without_worklog = st.tasks_without_worklog ∧
        ∀ u, alGetD st'.all_worklogs u [] = alGetD st.all_worklogs u [] ++
          (if u = issue.key then
            (worklogsOf issue.key).map (fun w => extract_worklog_data w issue.key)
          else [])))) := by
  rw [processIssue] at h
  by_cases hc : alContains st.all_issues issue.key = true
  · rw [if_pos hc, Option.some.injEq] at h
    exact Or.inl ⟨hc, h.symm⟩
  · rw [if_neg hc] at h
    right
    refine ⟨by simpa using hc, ?_⟩
    by_cases hw : (worklogsOf issue.key).isEmpty
    · rw [if_pos hw, Option.some.injEq] at h
      have hnil : worklogsOf issue.key = [] := List.isEmpty_iff.mp hw
      rw [← h]
      exact ⟨rfl, rfl, Or.inl ⟨hnil, rfl, rfl⟩⟩
    · rw [if_neg hw] at h
      obtain ⟨h1, h2, h3⟩ := processWorklogs_state _ _ _ _ _ _ h
      have hne : worklogsOf issue.key ≠ [] := by
        intro hcon
        exact hw (by simp [hcon])
      refine ⟨h1, by rw [h2], Or.inr ⟨hne, h3, ?_⟩⟩
      intro u
      exact processWorklogs_worklogs _ _ _ _ _ _ h u

theorem processIssues_weeks (worklogsOf : String → List RawWorklog) (wname : String)
    (ds de : Int) :
    ∀ (issues : List RawIssue) (st st' : ProjectData),
      processIssues worklogsOf wname ds de issues st = some st' →
      st'.weeks_info = st.weeks_info := by
  intro issues
  induction issues with
  | nil =>
    intro st st' h
    simp only [processIssues, Option.some.injEq] at h
    rw [← h]
  | cons i is ih =>
    intro st st' h
    simp only [processIssues] at h
    rcases h1 : processIssue worklogsOf wname ds de st i with _ | st₁
    · rw [h1] at h
      exact absurd h (by simp)
    · rw [h1] at h
      rcases processIssue_cases _ _ _ _ _ _ _ h1 with ⟨_, rfl⟩ | ⟨_, hw, _, _⟩
      · exact ih _ _ h
      · exact (ih _ _ h).trans hw

theorem processIssues_all_issues (worklogsOf : String → List RawWorklog)
    (wname : String) (ds de : Int) :
    ∀ (issues : List RawIssue) (st st' : ProjectData),
      processIssues worklogsOf wname ds de issues st = some st' → ∀ k,
      alContains st'.all_issues k = true ↔
        (alContains st.all_issues k = true ∨ k ∈ issues.map RawIssue.key) := by
  intro issues
  induction issues with
  | nil =>
    intro st st' h k
    simp only [processIssues, Option.some.injEq] at h
    rw [← h]
    simp
  | cons i is ih =>
    intro st st' h k
    simp only [processIssues] at h
    rcases h1 : processIssue worklogsOf wname ds de st i with _ | st₁
    · rw [h1] at h
      exact absurd h (by simp)
    · rw [h1] at h
      rcases processIssue_cases _ _ _ _ _ _ _ h1 with ⟨hc, rfl⟩ | ⟨hc, _, ha, _⟩
      · rw [ih _ _ h k]
        simp only [List.map_cons, List.mem_cons]
        constructor
        · rintro (h2 | h2)
          · exact Or.inl h2
          · exact Or.inr (Or.inr h2)
        · rintro (h2 | h2 | h2)
          · exact Or.inl h2
          · rw [h2]
            exact Or.inl hc
          · exact Or.inr h2
      · rw [ih _ _ h k, ha, alContains_alSet]
        simp only [List.map_cons, List.mem_cons, Bool.or_eq_true, beq_iff_eq]
        constructor
        · rintro ((h2 | h2) | h2)
          · exact Or.inl h2
          · exact Or.inr (Or.inl h2)
          · exact Or.inr (Or.inr h2)
        · rintro (h2 | h2 | h2)
          · exact Or.inl (Or.inl h2)
          · exact Or.inl (Or.inr h2)
          · exact Or.inr h2

theorem processIssues_all_issues_mono (worklogsOf : String → List RawWorklog)
    (wname : String) (ds de : Int) (issues : List RawIssue) (st st' : ProjectData)
    (h : processIssues worklogsOf wname ds de issues st = some st') (k : String)
    (hk : alContains st.all_issues k = true) : alContains st'.all_issues k = true :=
  (processIssues_all_issues _ _ _ _ _ _ _ h k).mpr (Or.inl hk)

theorem processIssues_worklogs_mono (worklogsOf : String → List RawWorklog)
    (wname : String) (ds de : Int) :
    ∀ (issues : List RawIssue) (st st' : ProjectData),
      processIssues worklogsOf wname ds de issues st = some st' →
      ∀ (u : String) (e : Worklog), e ∈ alGetD st.all_worklogs u [] →
      e ∈ alGetD st'.all_worklogs u [] := by
  intro issues
  induction issues with
  | nil =>
    intro st st' h u e he
    simp only [processIssues, Option.some.injEq] at h
    rw [← h]
    exact he
  | cons i is ih =>
    intro st st' h u e he
    simp only [processIssues] at h
    rcases h1 : processIssue worklogsOf wname ds de st i with _ | st₁
    · rw [h1] at h
      exact absurd h (by simp)
    · rw [h1] at h
      rcases processIssue_cases _ _ _ _ _ _ _ h1 with ⟨_, rfl⟩ | ⟨_, _, _, hcase⟩
      · exact ih _ _ h u e he
      · rcases hcase with ⟨_, _, hw⟩ | ⟨_, _, hw⟩
        · refine ih _ _ h u e ?_
          rw [hw]
          exact he
        · refine ih _ _ h u e ?_
          rw [hw u]
          exact List.mem_append_left _ he

theorem processIssues_worklogs_retain (worklogsOf : String → List RawWorklog)
    (wname : String) (ds de : Int) :
    ∀ (issues : List RawIssue) (st st' : ProjectData),
      processIssues worklogsOf wname ds de issues st = some st' →
      ∀ k, k ∈ issues.map RawIssue.key → alContains st.all_issues k = false →
      ∀ w ∈ worklogsOf k, extract_worklog_data w k ∈ alGetD st'.all_worklogs k [] := by
  intro issues
  induction issues with
  | nil =>
    intro st st' h k hk _ w hw
    exact absurd hk (by simp)
  | cons i is ih =>
    intro st st' h k hk hfalse w hw
    simp only [processIssues] at h
    rcases h1 : processIssue worklogsOf wname ds de st i with _ | st₁
    · rw [h1] at h
      exact absurd h (by simp)
    · rw [h1] at h
      rw [List.map_cons] at hk
      rcases processIssue_cases _ _ _ _ _ _ _ h1 with ⟨hc, rfl⟩ | ⟨hc, _, ha, hcase⟩
      · rcases List.mem_cons.mp hk with h2 | h2
        · rw [h2] at hfalse
          rw [hfalse] at hc
          exact absurd hc (by simp)
        · exact ih _ _ h k h2 hfalse w hw
      · by_cases hik : k = i.key
        · subst hik
          rcases hcase with ⟨hnil, _, _⟩ | ⟨_, _, hwl⟩
          · rw [hnil] at hw
            exact absurd hw (List.not_mem_nil _)
          · refine processIssues_worklogs_mono _ _ _ _ _ _ _ h i.key _ ?_
            rw [hwl i.key, if_pos rfl]
            refine List.mem_append_right _ ?_
            exact List.mem_map_of_mem _ hw
        · rcases List.mem_cons.mp hk with h2 | h2
          · exact absurd h2 hik
          · refine ih _ _ h k h2 ?_ w hw
            rw [ha, alContains_alSet]
            simp only [Bool.or_eq_false_iff]
            exact ⟨hfalse, by simpa using hik⟩

theorem processIssues_tasks (worklogsOf : String → List RawWorklog) (wname : String)
    (ds de : Int) :
    ∀ (issues : List RawIssue) (st st' : ProjectData),
      processIssues worklogsOf wname ds de issues st = some st' →
      ∃ ts, st'.tasks_without_worklog = st.tasks_without_worklog ++ ts ∧
        (∀ t ∈ ts, t.week = wname ∧ worklogsOf t.key = [] ∧
          alContains st.all_issues t.key = false ∧ t.key ∈ issues.map RawIssue.key ∧
          alContains st'.all_issues t.key = true) ∧
        (∀ k, k ∈ issues.map RawIssue.key → worklogsOf k = [] →
          alContains st.all_issues k = false → ∃ t ∈ ts, t.key = k) ∧
        (ts.map TaskNoLog.key).Nodup := by
  intro issues
  induction issues with
  | nil =>
    intro st st' h
    simp only [processIssues, Option.some.injEq] at h
    refine ⟨[], by rw [← h]; simp, by simp, ?_, by simp⟩
    intro k hk
    exact absurd hk (by simp)
  | cons i is ih =>
    intro st st' h
    simp only [processIssues] at h
    rcases h1 : processIssue worklogsOf wname ds de st i with _ | st₁
    · rw [h1] at h
      exact absurd h (by simp)
    · rw [h1] at h
      rcases processIssue_cases _ _ _ _ _ _ _ h1 with ⟨hc, rfl⟩ | ⟨hc, _, ha, hcase⟩
      · obtain ⟨ts, e1, e2, e3, e4⟩ := ih _ _ h
        refine ⟨ts, e1, ?_, ?_, e4⟩
        · intro t ht
          obtain ⟨p1, p2, p3, p4, p5⟩ := e2 t ht
          exact ⟨p1, p2, p3, by simp only [List.map_cons]; exact List.mem_cons_of_mem _ p4, p5⟩
        · intro k hk hkw hkf
          rw [List.map_cons] at hk
          rcases List.mem_cons.mp hk with h2 | h2
          · rw [h2] at hkf
            rw [hkf] at hc
            exact absurd hc (by simp)
          · exact e3 k h2 hkw hkf
      · have hone : alContains st₁.all_issues i.key = true := by
          rw [ha, alContains_alSet]
          simp
        have hkeep : ∀ u, u ≠ i.key →
            alContains st₁.all_issues u = alContains st.all_issues u := by
          intro u hu
          rw [ha, alContains_alSet]
          simp [hu]
        rcases hcase with ⟨hnil, htasks, _⟩ | ⟨hne, htasks, _⟩
        · obtain ⟨ts, e1, e2, e3, e4⟩ := ih _ _ h
          refine ⟨taskOf wname i :: ts, ?_, ?_, ?_, ?_⟩
          · rw [e1, htasks]
            simp
          · intro t ht
            rcases List.mem_cons.mp ht with h2 | h2
            · subst h2
              refine ⟨rfl, hnil, hc, by simp [taskOf, List.map_cons], ?_⟩
              exact processIssues_all_issues_mono _ _ _ _ _ _ _ h _ hone
            · obtain ⟨p1, p2, p3, p4, p5⟩ := e2 t h2
              have hne' : t.key ≠ i.key := by
                intro hcon
                rw [hcon] at p3
                rw [hone] at p3
                exact absurd p3 (by simp)
              refine ⟨p1, p2, ?_, ?_, p5⟩
              · rw [← hkeep t.key hne']
                exact p3
              · rw [List.map_cons]
                exact List.mem_cons_of_mem _ p4
          · intro k hk hkw hkf
            rw [List.map_cons] at hk
            rcases List.mem_cons.mp hk with h2 | h2
            · exact ⟨taskOf wname i, List.mem_cons_self _ _, h2.symm⟩
            · by_cases hik : k = i.key
              · exact ⟨taskOf wname i, List.mem_cons_self _ _, hik.symm⟩
              · obtain ⟨t, ht, hte⟩ := e3 k h2 hkw (by rw [hkeep k hik]; exact hkf)
                exact ⟨t, List.mem_cons_of_mem _ ht, hte⟩
          · rw [List.map_cons, List.nodup_cons]
            refine ⟨?_, e4⟩
            intro hcon
            obtain ⟨t, ht, hte⟩ := List.mem_map.mp hcon
            obtain ⟨_, _, p3, _, _⟩ := e2 t ht
            rw [show (taskOf wname i).key = i.key from rfl] at hte
            rw [hte] at p3
            rw [hone] at p3
            exact absurd p3 (by simp)
        · obtain ⟨ts, e1, e2, e3, e4⟩ := ih _ _ h
          refine ⟨ts, by rw [e1, htasks], ?_, ?_, e4⟩
          · intro t ht
            obtain ⟨p1, p2, p3, p4, p5⟩ := e2 t ht
            have hne' : t.key ≠ i.key := by
              intro hcon
              rw [hcon] at p2
              exact hne p2
            refine ⟨p1, p2, ?_, ?_, p5⟩
            · rw [← hkeep t.key hne']
              exact p3
            · rw [List.map_cons]
              exact List.mem_cons_of_mem _ p4
          · intro k hk hkw hkf
            rw [List.map_cons] at hk
            rcases List.mem_cons.mp hk with h2 | h2
            · rw [h2] at hkw
              exact absurd hkw hne
            · by_cases hik : k = i.key
              · rw [hik] at hkw
                exact absurd hkw hne
              · exact e3 k h2 hkw (by rw [hkeep k hik]; exact hkf)

theorem processWeeks_weeks_info (fetchIssues : Int × Int → List RawIssue)
    (worklogsOf : String → List RawWorklog) :
    ∀ (ws : List (Int × Int)) (idx : Nat) (st st' : ProjectData),
      processWeeks fetchIssues worklogsOf idx ws st = some st' → ∀ name,
      alContains st'.weeks_info name = true ↔
        (alContains st.weeks_info name = true ∨
         ∃ r, ∃ hr : r < ws.length,
           name = weekName (idx + r) (ws.get ⟨r, hr⟩).1 (ws.get ⟨r, hr⟩).2) := by
  intro ws
  induction ws with
  | nil =>
    intro idx st st' h name
    simp only [processWeeks, Option.some.injEq] at h
    rw [← h]
    simp
  | cons p rest ih =>
    intro idx st st' h name
    obtain ⟨ds, de⟩ := p
    simp only [processWeeks] at h
    split at h
    · exact absurd h (by simp)
    · rename_i st₃ heq
      have hw3 := processIssues_weeks _ _ _ _ _ _ _ heq
      rw [ih _ _ _ h name, hw3]
      simp only [alContains_alSet]
      constructor
      · rintro (h3 | h3)
        · rcases Bool.or_eq_true_iff.mp h3 with h4 | h4
          · rcases Bool.or_eq_true_iff.mp h4 with h5 | h5
            · exact Or.inl h5
            · refine Or.inr ⟨0, by simp, ?_⟩
              simpa using h5
          · refine Or.inr ⟨0, by simp, ?_⟩
            simpa using h4
        · obtain ⟨r, hr, he⟩ := h3
          refine Or.inr ⟨r + 1, by simpa using hr, ?_⟩
          rw [he]
          have harith : idx + 1 + r = idx + (r + 1) := by omega
          rw [harith]
          rfl
      · rintro (h3 | h3)
        · rw [h3]
          simp
        · obtain ⟨r, hr, he⟩ := h3
          rcases r with _ | r'
          · left
            have hnm : name = weekName idx ds de := by simpa using he
            rw [hnm]
            simp
          · refine Or.inr ⟨r', by simpa using hr, ?_⟩
            rw [he]
            have harith : idx + 1 + r' = idx + (r' + 1) := by omega
            rw [harith]
            rfl

theorem processWeeks_all_issues (fetchIssues : Int × Int → List RawIssue)
    (worklogsOf : String → List RawWorklog) :
    ∀ (ws : List (Int × Int)) (idx : Nat) (st st' : ProjectData),
      processWeeks fetchIssues worklogsOf idx ws st = some st' → ∀ k,
      alContains st'.all_issues k = true ↔
        (alContains st.all_issues k = true ∨
         ∃ r, ∃ hr : r < ws.length,
           k ∈ (fetchIssues (ws.get ⟨r, hr⟩)).map RawIssue.key) := by
  intro ws
  induction ws with
  | nil =>
    intro idx st st' h k
    simp only [processWeeks, Option.some.injEq] at h
    rw [← h]
    simp
  | cons p rest ih =>
    intro idx st st' h k
    obtain ⟨ds, de⟩ := p
    simp only [processWeeks] at h
    split at h
    · exact absurd h (by simp)
    · rename_i st₃ heq
      have hai := processIssues_all_issues _ _ _ _ _ _ _ heq k
      rw [ih _ _ _ h k, hai]
      constructor
      · rintro (h3 | h3)
        · rcases h3 with h4 | h4
          · exact Or.inl h4
          · exact Or.inr ⟨0, by simp, by simpa using h4⟩
        · obtain ⟨r, hr, he⟩ := h3
          exact Or.inr ⟨r + 1, by simpa using hr, by simpa using he⟩
      · rintro (h3 | h3)
        · exact Or.inl (Or.inl h3)
        · obtain ⟨r, hr, he⟩ := h3
          rcases r with _ | r'
          · exact Or.inl (Or.inr (by simpa using he))
          · exact Or.inr ⟨r', by simpa using hr, by simpa using he⟩

theorem processWeeks_worklogs_mono (fetchIssues : Int × Int → List RawIssue)
    (worklogsOf : String → List RawWorklog) :
    ∀ (ws : List (Int × Int)) (idx : Nat) (st st' : ProjectData),
      processWeeks fetchIssues worklogsOf idx ws st = some st' →
      ∀ (u : String) (e : Worklog), e ∈ alGetD st.all_worklogs u [] →
      e ∈ alGetD st'.all_worklogs u [] := by
  intro ws
  induction ws with
  | nil =>
    intro idx st st' h u e he
    simp only [processWeeks, Option.some.injEq] at h
    rw [← h]
    exact he
  | cons p rest ih =>
    intro idx st st' h u e he
    obtain ⟨ds, de⟩ := p
    simp only [processWeeks] at h
    split at h
    · exact absurd h (by simp)
    · rename_i st₃ heq
      refine ih _ _ _ h u e ?_
      exact processIssues_worklogs_mono _ _ _ _ _ _ _ heq u e he

theorem processWeeks_weeks_nodup (fetchIssues : Int × Int → List RawIssue)
    (worklogsOf : String → List RawWorklog) :
    ∀ (ws : List (Int × Int)) (idx : Nat) (st st' : ProjectData),
      processWeeks fetchIssues worklogsOf idx ws st = some st' →
      (st.weeks_info.map Prod.fst).Nodup → (st'.weeks_info.map Prod.fst).Nodup := by
  intro ws
  induction ws with
  | nil =>
    intro idx st st' h hnd
    simp only [processWeeks, Option.some.injEq] at h
    rw [← h]
    exact hnd
  | cons p rest ih =>
    intro idx st st' h hnd
    obtain ⟨ds, de⟩ := p
    simp only [processWeeks] at h
    split at h
    · exact absurd h (by simp)
    · rename_i st₃ heq
      refine ih _ _ _ h ?_
      rw [processIssues_weeks _ _ _ _ _ _ _ heq]
      exact alSet_keys_nodup _ _ (alSet_keys_nodup _ _ hnd)

theorem processWeeks_worklogs_retain (fetchIssues : Int × Int → List RawIssue)
    (worklogsOf : String → List RawWorklog) :
    ∀ (ws : List (Int × Int)) (idx : Nat) (st st' : ProjectData),
      processWeeks fetchIssues worklogsOf idx ws st = some st' →
      ∀ k, alContains st.all_issues k = false →
      (∃ r, ∃ hr : r < ws.length, k ∈ (fetchIssues (ws.get ⟨r, hr⟩)).map RawIssue.key) →
      ∀ w ∈ worklogsOf k, extract_worklog_data w k ∈ alGetD st'.all_worklogs k [] := by
  intro ws
  induction ws with
  | nil =>
    intro idx st st' h k _ hobs w hw
    obtain ⟨r, hr, _⟩ := hobs
    exact absurd hr (by simp)
  | cons p rest ih =>
    intro idx st st' h k hfalse hobs w hw
    obtain ⟨ds, de⟩ := p
    simp only [processWeeks] at h
    split at h
    · exact absurd h (by simp)
    · rename_i st₃ heq
      by_cases hhead : k ∈ (fetchIssues (ds, de)).map RawIssue.key
      · refine processWeeks_worklogs_mono _ _ _ _ _ _ h k _ ?_
        exact processIssues_worklogs_retain _ _ _ _ _ _ _ heq k hhead hfalse w hw
      · obtain ⟨r, hr, hk⟩ := hobs
        rcases r with _ | r'
        · exact absurd (by simpa using hk) hhead
        · have hf3 : alContains st₃.all_issues k = false := by
            by_contra hcon
            simp only [Bool.not_eq_false] at hcon
            rcases (processIssues_all_issues _ _ _ _ _ _ _ heq k).mp hcon with h4 | h4
            · rw [h4] at hfalse
              exact absurd hfalse (by simp)
            · exact hhead h4
          refine ih _ _ _ h k hf3 ⟨r', by simpa using hr, by simpa using hk⟩ w hw

theorem processWeeks_tasks (fetchIssues : Int × Int → List RawIssue)
    (worklogsOf : String → List RawWorklog) :
    ∀ (ws : List (Int × Int)) (idx : Nat) (st st' : ProjectData),
      processWeeks fetchIssues worklogsOf idx ws st = some st' →
      ∃ ts, st'.tasks_without_worklog = st.tasks_without_worklog ++ ts ∧
        (∀ t ∈ ts, worklogsOf t.key = [] ∧ alContains st.all_issues t.key = false ∧
          ∃ r, ∃ hr : r < ws.length,
            t.week = weekName (idx + r) (ws.get ⟨r, hr⟩).1 (ws.get ⟨r, hr⟩).2 ∧
            t.key ∈ (fetchIssues (ws.get ⟨r, hr⟩)).map RawIssue.key ∧
            ∀ r' (hr' : r' < ws.length), r' < r →
              t.key ∉ (fetchIssues (ws.get ⟨r', hr'⟩)).map RawIssue.key) ∧
        (∀ k, worklogsOf k = [] → alContains st.all_issues k = false →
          (∃ r, ∃ hr : r < ws.length, k ∈ (fetchIssues (ws.get ⟨r, hr⟩)).map RawIssue.key) →
          ∃ t ∈ ts, t.key = k) ∧
        (ts.map TaskNoLog.key).Nodup := by
  intro ws
  induction ws with
  | nil =>
    intro idx st st' h
    simp only [processWeeks, Option.some.injEq] at h
    refine ⟨[], by rw [← h]; simp, by simp, ?_, by simp⟩
    intro k _ _ hobs
    obtain ⟨r, hr, _⟩ := hobs
    exact absurd hr (by simp)
  | cons p rest ih =>
    intro idx st st' h
    obtain ⟨ds, de⟩ := p
    simp only [processWeeks] at h
    split at h
    · exact absurd h (by simp)
    · rename_i st₃ heq
      obtain ⟨ts₀, e1, e2, e3, e4⟩ := processIssues_tasks _ _ _ _ _ _ _ heq
      obtain ⟨ts₁, f1, f2, f3, f4⟩ := ih _ _ _ h
      have hiff := processIssues_all_issues _ _ _ _ _ _ _ heq
      have hkey3_of_1 : ∀ t ∈ ts₁,
          alContains st.all_issues t.key = false ∧
          t.key ∉ (fetchIssues (ds, de)).map RawIssue.key := by
        intro t ht
        obtain ⟨_, p2, _⟩ := f2 t ht
        constructor
        · by_contra hcon
          simp only [Bool.not_eq_false] at hcon
          rw [(hiff t.key).mpr (Or.inl hcon)] at p2
          exact absurd p2 (by simp)
        · intro hcon
          rw [(hiff t.key).mpr (Or.inr hcon)] at p2
          exact absurd p2 (by simp)
      refine ⟨ts₀ ++ ts₁, ?_, ?_, ?_, ?_⟩
      · rw [f1, e1]
        simp
      · intro t ht
        rcases List.mem_append.mp ht with h2 | h2
        · obtain ⟨p1, p2, p3, p4, _⟩ := e2 t h2
          refine ⟨p2, p3, 0, by simp, ?_, by simpa using p4, ?_⟩
          · simpa using p1
          · intro r' _ hr'
            exact absurd hr' (by omega)
        · obtain ⟨p1, p2, p3⟩ := f2 t h2
          obtain ⟨hfs, hnh⟩ := hkey3_of_1 t h2
          obtain ⟨r, hr, q1, q2, q3⟩ := p3
          refine ⟨p1, hfs, r + 1, by simpa using hr, ?_, by simpa using q2, ?_⟩
          · have harith : idx + 1 + r = idx + (r + 1) := by omega
            rw [← harith]
            simpa using q1
          · intro r' hr' hlt
            rcases r' with _ | r''
            · simpa using hnh
            · have := q3 r'' (by simpa using hr') (by omega)
              simpa using this
      · intro k hkw hkf hobs
        obtain ⟨r, hr, hk⟩ := hobs
        by_cases hhead : k ∈ (fetchIssues (ds, de)).map RawIssue.key
        · obtain ⟨t, ht, hte⟩ := e3 k hhead hkw hkf
          exact ⟨t, List.mem_append_left _ ht, hte⟩
        · rcases r with _ | r'
          · exact absurd (by simpa using hk) hhead
          · have hf3 : alContains st₃.all_issues k = false := by
              by_contra hcon
              simp only [Bool.not_eq_false] at hcon
              rcases (hiff k).mp hcon with h4 | h4
              · rw [h4] at hkf
                exact absurd hkf (by simp)
              · exact hhead h4
            obtain ⟨t, ht, hte⟩ := f3 k hkw hf3 ⟨r', by simpa using hr, by simpa using hk⟩
            exact ⟨t, List.mem_append_right _ ht, hte⟩
      · rw [List.map_append, List.nodup_append]
        refine ⟨e4, f4, ?_⟩
        intro x hx
        obtain ⟨t0, ht0, hte0⟩ := List.mem_map.mp hx
        obtain ⟨_, _, _, _, p5⟩ := e2 t0 ht0
        intro hcon
        obtain ⟨t1, ht1, hte1⟩ := List.mem_map.mp hcon
        obtain ⟨_, q2, _⟩ := f2 t1 ht1
        rw [hte1, ← hte0] at q2
        rw [p5] at q2
        exact absurd q2 (by simp)

/-- The task list of a full `collect_project_data` run: every task is a
no-worklog issue recorded for the window in which it was first observed,
every observed no-worklog issue is recorded, and no key repeats. -/
theorem collect_project_data_tasks (cur : Int) (n : Nat)
    (fetchIssues : Int × Int → List RawIssue) (worklogsOf : String → List RawWorklog)
    (pd : ProjectData) (h : collect_project_data cur n fetchIssues worklogsOf = some pd) :
    (∀ t ∈ pd.tasks_without_worklog, worklogsOf t.key = [] ∧
      ∃ r, ∃ hr : r < (calculate_working_weeks cur n).length,
        t.week = weekName r ((calculate_working_weeks cur n).get ⟨r, hr⟩).1
          ((calculate_working_weeks cur n).get ⟨r, hr⟩).2 ∧
        t.key ∈ (fetchIssues ((calculate_working_weeks cur n).get ⟨r, hr⟩)).map RawIssue.key ∧
        ∀ r' (hr' : r' < (calculate_working_weeks cur n).length), r' < r →
          t.key ∉ (fetchIssues ((calculate_working_weeks cur n).get ⟨r', hr'⟩)).map RawIssue.key) ∧
    (∀ k, worklogsOf k = [] →
      (∃ r, ∃ hr : r < (calculate_working_weeks cur n).length,
        k ∈ (fetchIssues ((calculate_working_weeks cur n).get ⟨r, hr⟩)).map RawIssue.key) →
      ∃ t ∈ pd.tasks_without_worklog, t.key = k) ∧
    (pd.tasks_without_worklog.map TaskNoLog.key).Nodup := by
  rw [collect_project_data] at h
  obtain ⟨ts, e1, e2, e3, e4⟩ :=
    processWeeks_tasks fetchIssues worklogsOf (calculate_working_weeks cur n) 0
      emptyProjectData pd h
  have hts : pd.tasks_without_worklog = ts := by
    rw [e1]
    rfl
  refine ⟨?_, ?_, by rw [hts]; exact e4⟩
  · intro t ht
    rw [hts] at ht
    obtain ⟨p1, _, r, hr, q1, q2, q3⟩ := e2 t ht
    rw [Nat.zero_add] at q1
    exact ⟨p1, r, hr, q1, q2, q3⟩
  · intro k hkw hobs
    rw [hts]
    exact e3 k hkw rfl hobs

theorem collect_project_data_weeks (cur : Int) (n : Nat)
    (fetchIssues : Int × Int → List RawIssue) (worklogsOf : String → List RawWorklog)
    (pd : ProjectData) (h : collect_project_data cur n fetchIssues worklogsOf = some pd) :
    (∀ name, alContains pd.weeks_info name = true ↔
      ∃ r, ∃ hr : r < (calculate_working_weeks cur n).length,
        name = weekName r ((calculate_working_weeks cur n).get ⟨r, hr⟩).1
          ((calculate_working_weeks cur n).get ⟨r, hr⟩).2) ∧
    (pd.weeks_info.map Prod.fst).Nodup := by
  rw [collect_project_data] at h
  constructor
  · intro name
    rw [processWeeks_weeks_info fetchIssues worklogsOf _ _ _ _ h name]
    constructor
    · rintro (h1 | h1)
      · exact absurd h1 (by simp [emptyProjectData])
      · obtain ⟨r, hr, he⟩ := h1
        rw [Nat.zero_add] at he
        exact ⟨r, hr, he⟩
    · rintro ⟨r, hr, he⟩
      refine Or.inr ⟨r, hr, ?_⟩
      rw [Nat.zero_add]
      exact he
  · refine processWeeks_weeks_nodup fetchIssues worklogsOf _ _ _ _ h ?_
    simp [emptyProjectData]

/-- Every entry of the aggregated stats dict carries exactly the recorded
tasks of its own week. -/
theorem stats_entry_tasks (pd : ProjectData) (stats : List (String × WeeklyStat))
    (hstats : create_weekly_stats pd = some stats) :
    ∀ p ∈ stats, p.2.tasks_without_worklog
      = pd.tasks_without_worklog.filter (fun t => t.week == p.1) := by
  intro p hp
  obtain ⟨info, hb⟩ := statsFold_mem pd pd.weeks_info [] stats hstats
    (by intro q hq; exact absurd hq (List.not_mem_nil _)) p hp
  obtain ⟨acc, _, hshape⟩ := buildWeekStat_inv hb
  rw [hshape]

/-- C4: an issue with no work-log entries that was observed in some window
appears in the `issues_without_log` task list of exactly one window of the
aggregation result — the window in which `collect_project_data` first
observed it — and in no other window's list. -/
theorem claim_C4_no_log_issue_in_exactly_one_window
    (cur : Int) (n : Nat) (fetchIssues : Int × Int → List RawIssue)
    (worklogsOf : String → List RawWorklog) (pd : ProjectData)
    (stats : List (String × WeeklyStat)) (k : String)
    (hcol : collect_project_data cur n fetchIssues worklogsOf = some pd)
    (hstats : create_weekly_stats pd = some stats)
    (hnolog : worklogsOf k = [])
    (hobs : ∃ r, ∃ hr : r < (calculate_working_weeks cur n).length,
      k ∈ (fetchIssues ((calculate_working_weeks cur n).get ⟨r, hr⟩)).map RawIssue.key) :
    stats.countP (fun p => (p.2.tasks_without_worklog.map TaskNoLog.key).contains k) = 1 ∧
    (∀ p ∈ stats, ∀ t ∈ p.2.tasks_without_worklog, t.key = k →
      ∃ r, ∃ hr : r < (calculate_working_weeks cur n).length,
        t.week = weekName r ((calculate_working_weeks cur n).get ⟨r, hr⟩).1
          ((calculate_working_weeks cur n).get ⟨r, hr⟩).2 ∧
        k ∈ (fetchIssues ((calculate_working_weeks cur n).get ⟨r, hr⟩)).map RawIssue.key ∧
        ∀ r' (hr' : r' < (calculate_working_weeks cur n).length), r' < r →
          k ∉ (fetchIssues ((calculate_working_weeks cur n).get ⟨r', hr'⟩)).map RawIssue.key) := by
  obtain ⟨hall, hex, hnd⟩ :=
    collect_project_data_tasks cur n fetchIssues worklogsOf pd hcol
  obtain ⟨t0, ht0, ht0k⟩ := hex k hnolog hobs
  have htasks := stats_entry_tasks pd stats hstats
  have hkeysnd : (stats.map Prod.fst).Nodup :=
    statsFold_keys_nodup pd pd.weeks_info [] stats hstats (by simp)
  constructor
  · have hchar : ∀ p ∈ stats,
        ((p.2.tasks_without_worklog.map TaskNoLog.key).contains k = true) ↔
          ((p.1 == t0.week) = true) := by
      intro p hp
      rw [htasks p hp]
      constructor
      · intro hc
        have hc' : k ∈ (pd.tasks_without_worklog.filter
            (fun t => t.week == p.1)).map TaskNoLog.key := by
          simpa using hc
        obtain ⟨t, htf, htk⟩ := List.mem_map.mp hc'
        obtain ⟨htm, htw⟩ := List.mem_filter.mp htf
        have : t = t0 := List.inj_on_of_nodup_map hnd htm ht0 (by rw [htk, ht0k])
        rw [← this]
        simp only [beq_iff_eq] at htw ⊢
        exact htw.symm
      · intro hpw
        simp only [beq_iff_eq] at hpw
        have ht0f : t0 ∈ pd.tasks_without_worklog.filter (fun t => t.week == p.1) := by
          rw [List.mem_filter]
          exact ⟨ht0, by simp [hpw]⟩
        have : k ∈ (pd.tasks_without_worklog.filter
            (fun t => t.week == p.1)).map TaskNoLog.key := by
          rw [← ht0k]
          exact List.mem_map_of_mem _ ht0f
        simpa using this
    rw [List.countP_congr hchar]
    have hcomp : (fun (p : String × WeeklyStat) => p.1 == t0.week)
        = ((fun s => s == t0.week) ∘ Prod.fst) := rfl
    rw [hcomp, ← List.countP_map, ← List.count_eq_countP]
    refine List.count_eq_one_of_mem hkeysnd ?_
    obtain ⟨_, r, hr, q1, _, _⟩ := hall t0 ht0
    have hwin : alContains pd.weeks_info t0.week = true :=
      ((collect_project_data_weeks cur n fetchIssues worklogsOf pd hcol).1 t0.week).mpr
        ⟨r, hr, q1⟩
    obtain ⟨info, hwm⟩ := alContains_exists_mem hwin
    have := statsFold_contains_of_mem pd pd.weeks_info [] stats t0.week info hstats hwm
    exact (alContains_iff_mem_keys _ _).mp this
  · intro p hp t ht htk
    have ht' : t ∈ pd.tasks_without_worklog := by
      rw [htasks p hp] at ht
      exact (List.mem_filter.mp ht).1
    obtain ⟨_, r, hr, q1, q2, q3⟩ := hall t ht'
    rw [htk] at q2 q3
    exact ⟨r, hr, q1, q2, q3⟩

set_option maxRecDepth 2000 in
/-- Witness for C4: scenario 3 — the no-worklog issue `X-1` is fetched in
both of the two windows, yet lands in exactly one week's task list. -/
theorem claim_C4_witness :
    statsS3.countP
      (fun p => (p.2.tasks_without_worklog.map TaskNoLog.key).contains "X-1") = 1 :=
  (claim_C4_no_log_issue_in_exactly_one_window t0 2 fetchS3 wlofNone pdS3 statsS3 "X-1"
    (opt_eq_some_getD emptyProjectData (by with_unfolding_all decide))
    (opt_eq_some_getD [] (by with_unfolding_all decide))
    rfl
    ⟨0, by decide, by with_unfolding_all decide⟩).1

theorem no_worklog_report_aux (allTasks : List TaskNoLog)
    (hnd : (allTasks.map TaskNoLog.key).Nodup) :
    ∀ (entries : List (String × WeeklyStat)) (acc : List TaskNoLog),
      (entries.map Prod.fst).Nodup →
      (∀ p ∈ entries, p.2.tasks_without_worklog
        = allTasks.filter (fun t => t.week == p.1)) →
      (acc.map TaskNoLog.key).Nodup →
      (∀ t ∈ acc, t ∈ allTasks) →
      (∀ t ∈ acc, ∀ p ∈ entries, t.week ≠ p.1) →
      (((entries.foldl (fun acc p =>
          if p.1 == "_full_data" then acc else acc ++ p.2.tasks_without_worklog)
        acc).map TaskNoLog.key).Nodup) := by
  intro entries
  induction entries with
  | nil =>
    intro acc _ _ hacc _ _
    exact hacc
  | cons p rest ih =>
    intro acc hnames hfilter hacc haccmem haccweek
    simp only [List.foldl_cons]
    by_cases hfd : (p.1 == "_full_data") = true
    · rw [if_pos hfd]
      refine ih acc ?_ ?_ hacc haccmem ?_
      · exact (List.nodup_cons.mp (by simpa using hnames)).2
      · intro q hq
        exact hfilter q (List.mem_cons_of_mem _ hq)
      · intro t ht q hq
        exact haccweek t ht q (List.mem_cons_of_mem _ hq)
    · rw [if_neg hfd]
      have hptasks := hfilter p (List.mem_cons_self _ _)
      have hsub : ((allTasks.filter (fun t => t.week == p.1)).map TaskNoLog.key).Sublist
          (allTasks.map TaskNoLog.key) :=
        (List.filter_sublist _).map _
      refine ih (acc ++ p.2.tasks_without_worklog) ?_ ?_ ?_ ?_ ?_
      · exact (List.nodup_cons.mp (by simpa using hnames)).2
      · intro q hq
        exact hfilter q (List.mem_cons_of_mem _ hq)
      · rw [List.map_append, List.nodup_append]
        refine ⟨hacc, by rw [hptasks]; exact hsub.nodup hnd, ?_⟩
        intro x hx hx2
        obtain ⟨ta, hta, htae⟩ := List.mem_map.mp hx
        obtain ⟨tf, htf, htfe⟩ := List.mem_map.mp hx2
        rw [hptasks] at htf
        obtain ⟨htfm, htfw⟩ := List.mem_filter.mp htf
        have : ta = tf := List.inj_on_of_nodup_map hnd (haccmem ta hta) htfm
          (by rw [htae, htfe])
        have hw : ta.week = p.1 := by
          rw [this]
          simpa using htfw
        exact haccweek ta hta p (List.mem_cons_self _ _) hw
      · intro t ht
        rcases List.mem_append.mp ht with h1 | h1
        · exact haccmem t h1
        · rw [hptasks] at h1
          exact (List.mem_filter.mp h1).1
      · intro t ht q hq
        rcases List.mem_append.mp ht with h1 | h1
        · exact haccweek t h1 q (List.mem_cons_of_mem _ hq)
        · rw [hptasks] at h1
          have hw : t.week = p.1 := by simpa using (List.mem_filter.mp h1).2
          rw [hw]
          intro hcon
          have hnames' : ¬ p.1 ∈ rest.map Prod.fst :=
            (List.nodup_cons.mp (by simpa using hnames)).1
          exact hnames' (hcon ▸ List.mem_map_of_mem _ hq)

/-- C7: the no-worklog report derived from an aggregation result contains no
two rows with the same issue key (the corpus records each no-log issue once,
under a single week, and each week contributes its own tasks once). -/
theorem claim_C7_no_worklog_report_deduplicated
    (cur : Int) (n : Nat) (fetchIssues : Int × Int → List RawIssue)
    (worklogsOf : String → List RawWorklog) (pd : ProjectData)
    (stats : List (String × WeeklyStat))
    (hcol : collect_project_data cur n fetchIssues worklogsOf = some pd)
    (hstats : create_weekly_stats pd = some stats) :
    ((create_no_worklog_report stats).map TaskNoLog.key).Nodup := by
  have hnd := (collect_project_data_tasks cur n fetchIssues worklogsOf pd hcol).2.2
  rw [create_no_worklog_report]
  refine no_worklog_report_aux pd.tasks_without_worklog hnd stats []
    (statsFold_keys_nodup pd pd.weeks_info [] stats hstats (by simp))
    (stats_entry_tasks pd stats hstats) (by simp) ?_ ?_
  · intro t ht
    exact absurd ht (List.not_mem_nil _)
  · intro t ht
    exact absurd ht (List.not_mem_nil _)

set_option maxRecDepth 2000 in
/-- Witness for C7: scenario 1 (one no-worklog task, `X-1`). -/
theorem claim_C7_witness :
    ((create_no_worklog_report statsS1).map TaskNoLog.key).Nodup :=
  claim_C7_no_worklog_report_deduplicated t0 1 fetchS1 wlofS1 pdS1 statsS1
    (opt_eq_some_getD emptyProjectData (by with_unfolding_all decide))
    (opt_eq_some_getD [] (by with_unfolding_all decide))

/-! ## The fallback path of `get_user_tasks_details` -/

theorem weekName_ne_full_data (idx : Nat) (ds de : Int) :
    weekName idx ds de ≠ "_full_data" := by
  intro h
  have hd := congrArg String.data h
  rw [weekName] at hd
  simp only [String.data_append, List.append_assoc] at hd
  have h1 : ∀ x : List Char, ("Неделя ".data ++ x).head? = some 'Н' := fun _ => rfl
  have h2 := congrArg List.head? hd
  rw [h1] at h2
  have h3 : ("_full_data".data).head? = some '_' := rfl
  rw [h3, Option.some.injEq] at h2
  exact absurd h2 (by decide)

theorem alContains_of_mem {α : Type} {m : List (String × α)} {p : String × α}
    (h : p ∈ m) : alContains m p.1 = true := by
  rw [alContains, List.any_eq_true]
  exact ⟨p, h, by simp⟩

/-- Along `statsFold`, any name property holding for the accumulator and
for every recorded week holds for every output entry. -/
theorem statsFold_names (pd : ProjectData) (Q : String → Prop) :
    ∀ (ws : List (String × WeekInfo)) (acc out : List (String × WeeklyStat)),
      statsFold pd ws acc = some out →
      (∀ p ∈ acc, Q p.1) → (∀ q ∈ ws, Q q.1) → ∀ p ∈ out, Q p.1 := by
  intro ws
  induction ws with
  | nil =>
    intro acc out h hacc _
    rw [statsFold] at h
    cases h
    exact hacc
  | cons q rest ih =>
    intro acc out h hacc hws
    obtain ⟨w, info⟩ := q
    rw [statsFold] at h
    rcases hb : buildWeekStat pd w info with _ | st
    · rw [hb] at h
      exact absurd h (by simp)
    · rw [hb] at h
      refine ih _ _ h ?_ ?_
      · intro p hp
        rcases mem_alSet hp with h1 | h1
        · rw [h1]
          exact hws (w, info) (List.mem_cons_self _ _)
        · exact hacc p h1
      · intro q hq
        exact hws q (List.mem_cons_of_mem _ hq)

/-- The first task record encountered on the fallback path raises a
`KeyError`: the aggregator's task dicts carry no `'Пользователь'` key. -/
theorem fallbackWeekTasks_none (user : String) (t : TaskNoLog) (ts : List TaskNoLog) :
    fallbackWeekTasks user (t :: ts) = none := by
  have hk : alGet? (taskDict t) "Пользователь" = none := rfl
  rw [fallbackWeekTasks, hk]

theorem fallbackUserTasks_none (user : String) :
    ∀ (entries : List (String × WeeklyStat)),
      (∃ p ∈ entries, p.1 ≠ "_full_data" ∧ p.2.tasks_without_worklog ≠ []) →
      fallbackUserTasks user entries = none := by
  intro entries
  induction entries with
  | nil =>
    rintro ⟨p, hp, _⟩
    exact absurd hp (List.not_mem_nil _)
  | cons q rest ih =>
    rintro ⟨p, hp, hpn, hpt⟩
    obtain ⟨w, st⟩ := q
    rw [fallbackUserTasks]
    by_cases hfd : (w == "_full_data") = true
    · rw [if_pos hfd]
      rcases List.mem_cons.mp hp with h1 | h1
      · exfalso
        apply hpn
        rw [h1]
        simpa using hfd
      · exact ih ⟨p, h1, hpn, hpt⟩
    · rw [if_neg hfd]
      rcases hst : st.tasks_without_worklog with _ | ⟨t, ts⟩
      · have hrest : p ∈ rest := by
          rcases List.mem_cons.mp hp with h1 | h1
          · exfalso
            apply hpt
            rw [h1]
            exact hst
          · exact h1
        rw [show fallbackWeekTasks user [] = some [] from rfl,
          ih ⟨p, hrest, hpn, hpt⟩]
      · rw [fallbackWeekTasks_none]

/-- C10: on an aggregator-produced stats dict that carries at least one
no-worklog task and no attached raw-data bundle, `get_user_tasks_details`
raises a `KeyError` (the fallback path reads record fields the aggregator
never produces) instead of returning a list. -/
theorem claim_C10_fallback_path_raises
    (cur : Int) (n : Nat) (fetchIssues : Int × Int → List RawIssue)
    (worklogsOf : String → List RawWorklog) (pd : ProjectData)
    (stats : List (String × WeeklyStat)) (user : String)
    (hcol : collect_project_data cur n fetchIssues worklogsOf = some pd)
    (hstats : create_weekly_stats pd = some stats)
    (hsome : ∃ p ∈ stats, p.2.tasks_without_worklog ≠ []) :
    get_user_tasks_details stats none user = none := by
  have hshape : ∀ p ∈ stats, p.1 ≠ "_full_data" := by
    refine statsFold_names pd (fun name => name ≠ "_full_data")
      pd.weeks_info [] stats hstats (by intro p hp; exact absurd hp (List.not_mem_nil _)) ?_
    intro q hq
    have hc := alContains_of_mem hq
    obtain ⟨r, hr, he⟩ :=
      ((collect_project_data_weeks cur n fetchIssues worklogsOf pd hcol).1 q.1).mp hc
    rw [he]
    exact weekName_ne_full_data _ _ _
  obtain ⟨p, hp, hpt⟩ := hsome
  rw [get_user_tasks_details, fallbackUserTasks_none user stats ⟨p, hp, hshape p hp, hpt⟩]
  rfl

set_option maxRecDepth 2000 in
/-- Witness for C10: scenario 3 (its single no-worklog task `X-1`), queried
without the raw-data bundle. -/
theorem claim_C10_witness :
    get_user_tasks_details statsS3 none "alice" = none :=
  claim_C10_fallback_path_raises t0 2 fetchS3 wlofNone pdS3 statsS3 "alice"
    (opt_eq_some_getD emptyProjectData (by with_unfolding_all decide))
    (opt_eq_some_getD [] (by with_unfolding_all decide))
    ⟨headStat statsS3, headD_mem ("", emptyStat) (by with_unfolding_all decide),
      by with_unfolding_all decide⟩

/-- C9: the aggregation is deterministic — it is a pure function of its
inputs.  Two calls of `analyze_project` on structurally identical inputs
(the same reference date and week count, and collaborators returning the
same issues per window and the same work-log entries per issue) return
structurally identical results; there is no hidden state. -/
theorem claim_C9_aggregation_deterministic (current_date : Int) (weeks_count : Nat)
    (fetchIssues₁ fetchIssues₂ : Int × Int → List RawIssue)
    (worklogsOf₁ worklogsOf₂ : String → List RawWorklog)
    (hf : ∀ w, fetchIssues₁ w = fetchIssues₂ w)
    (hg : ∀ k, worklogsOf₁ k = worklogsOf₂ k) :
    analyze_project current_date weeks_count fetchIssues₁ worklogsOf₁
      = analyze_project current_date weeks_count fetchIssues₂ worklogsOf₂ := by
  rw [funext hf, funext hg]

/-- Witness for C9 at scenario 1's inputs. -/
theorem claim_C9_witness :
    analyze_project t0 1 fetchS1 wlofS1 = analyze_project t0 1 fetchS1 wlofS1 :=
  claim_C9_aggregation_deterministic t0 1 fetchS1 fetchS1 wlofS1 wlofS1
    (fun _ => rfl) (fun _ => rfl)

/-! ## The stable descending sort -/

theorem insertDescBy_perm {α : Type} (f : α → ℚ) (x : α) :
    ∀ l : List α, (insertDescBy f x l).Perm (x :: l) := by
  intro l
  induction l with
  | nil => rfl
  | cons y ys ih =>
    rw [insertDescBy]
    by_cases h : f y ≤ f x
    · rw [if_pos h]
    · rw [if_neg h]
      exact List.Perm.trans (List.Perm.cons y ih) (List.Perm.swap x y ys)

theorem sortDescBy_perm {α : Type} (f : α → ℚ) :
    ∀ l : List α, (sortDescBy f l).Perm l := by
  intro l
  induction l with
  | nil => rfl
  | cons x xs ih =>
    rw [sortDescBy]
    exact (insertDescBy_perm f x (sortDescBy f xs)).trans (List.Perm.cons x ih)

theorem insertDescBy_pairwise {α : Type} (f : α → ℚ) (x : α) :
    ∀ l : List α, l.Pairwise (fun a b => f b ≤ f a) →
      (insertDescBy f x l).Pairwise (fun a b => f b ≤ f a) := by
  intro l
  induction l with
  | nil =>
    intro _
    exact List.pairwise_singleton _ _
  | cons y ys ih =>
    intro hp
    obtain ⟨hy, hys⟩ := List.pairwise_cons.mp hp
    rw [insertDescBy]
    by_cases h : f y ≤ f x
    · rw [if_pos h]
      refine List.pairwise_cons.mpr ⟨?_, hp⟩
      intro z hz
      rcases List.mem_cons.mp hz with h1 | h1
      · rw [h1]
        exact h
      · exact le_trans (hy z h1) h
    · rw [if_neg h]
      refine List.pairwise_cons.mpr ⟨?_, ih hys⟩
      intro z hz
      rcases List.mem_cons.mp ((insertDescBy_perm f x ys).mem_iff.mp hz) with h1 | h1
      · rw [h1]
        exact le_of_not_le h
      · exact hy z h1

theorem sortDescBy_pairwise {α : Type} (f : α → ℚ) :
    ∀ l : List α, (sortDescBy f l).Pairwise (fun a b => f b ≤ f a) := by
  intro l
  induction l with
  | nil => exact List.Pairwise.nil
  | cons x xs ih =>
    rw [sortDescBy]
    exact insertDescBy_pairwise f x _ ih

theorem insertDescBy_filter {α : Type} (f : α → ℚ) (x : α) (q : ℚ) :
    ∀ l : List α,
      (insertDescBy f x l).filter (fun a => f a == q)
        = if f x == q then x :: l.filter (fun a => f a == q)
          else l.filter (fun a => f a == q) := by
  intro l
  induction l with
  | nil =>
    rw [insertDescBy]
    by_cases h : (f x == q) = true
    · rw [if_pos h]
      simp [List.filter, h]
    · rw [if_neg h]
      simp only [List.filter]
      rw [show (f x == q) = false by simpa using h]
  | cons y ys ih =>
    rw [insertDescBy]
    by_cases h : f y ≤ f x
    · rw [if_pos h]
      by_cases hq : (f x == q) = true
      · rw [if_pos hq]
        simp only [List.filter, hq]
      · rw [if_neg hq]
        simp only [List.filter]
        rw [show (f x == q) = false by simpa using hq]
    · rw [if_neg h]
      by_cases hq : (f x == q) = true
      · rw [if_pos hq]
        have hyq : (f y == q) = false := by
          have hlt : f x < f y := lt_of_not_le h
          have : f x = q := by simpa using hq
          rw [this] at hlt
          simp only [beq_eq_false_iff_ne]
          exact (ne_of_gt hlt)
        simp only [List.filter, hyq, ih, hq]
        simp
      · rw [if_neg hq]
        simp only [List.filter, ih]
        rw [if_neg hq]

theorem sortDescBy_filter {α : Type} (f : α → ℚ) (q : ℚ) :
    ∀ l : List α,
      (sortDescBy f l).filter (fun a => f a == q) = l.filter (fun a => f a == q) := by
  intro l
  induction l with
  | nil => rfl
  | cons x xs ih =>
    rw [sortDescBy, insertDescBy_filter]
    by_cases hq : (f x == q) = true
    · rw [if_pos hq, ih]
      simp only [List.filter, hq]
    · rw [if_neg hq, ih]
      simp only [List.filter]
      rw [show (f x == q) = false by simpa using hq]

/-- C8: the per-user task detail list is the user's encounter-ordered task
list sorted by hours in descending order, and the sort is stable — for
every hours value, the tasks carrying it appear in their original
encounter order. -/
theorem claim_C8_user_tasks_sorted_stable
    (weekly : List (String × WeeklyStat)) (pd : ProjectData) (user : String)
    (l out : List UserTask)
    (hl : userTasksUnsorted pd user = some l)
    (hout : get_user_tasks_details weekly (some pd) user = some out) :
    out.Pairwise (fun a b => b.hours ≤ a.hours) ∧
    (∀ q : ℚ, out.filter (fun t => t.hours == q) = l.filter (fun t => t.hours == q)) ∧
    out.Perm l := by
  have hsort : out = sortDescBy (fun t => t.hours) l := by
    rw [get_user_tasks_details, hl] at hout
    simpa using hout.symm
  subst hsort
  exact ⟨sortDescBy_pairwise _ l, fun q => sortDescBy_filter _ q l, sortDescBy_perm _ l⟩

set_option maxRecDepth 2000 in
/-- Witness for C8: scenario 2, user `bob`. -/
theorem claim_C8_witness :
    outS2.Pairwise (fun a b => b.hours ≤ a.hours) :=
  (claim_C8_user_tasks_sorted_stable statsS2 pdS2 "bob" utS2 outS2
    (opt_eq_some_getD [] (by with_unfolding_all decide))
    (opt_eq_some_getD [] (by with_unfolding_all decide))).1

/-! ## Per-entry contribution characterization of the weekly hour folds -/

theorem weekFoldWorklogs_getD (ds de : Int) (k : String) :
    ∀ (ws : List Worklog) (acc acc' : List (String × List Worklog) × List (String × ℚ)),
      weekFoldWorklogs ds de k ws acc = some acc' → ∀ u,
      alGetD acc'.2 u 0 = alGetD acc.2 u 0 + (ws.map (entryContrib ds de u)).sum := by
  intro ws
  induction ws with
  | nil =>
    intro acc acc' h u
    rw [weekFoldWorklogs] at h
    cases h
    simp
  | cons w ws' ih =>
    intro acc acc' h u
    rcases hp : parseDate w.date with _ | d
    · simp only [weekFoldWorklogs, hp] at h
      exact absurd h (by simp)
    · simp only [weekFoldWorklogs, hp] at h
      by_cases hin : dayOf ds ≤ d ∧ d ≤ dayOf de
      · rw [if_pos hin] at h
        have hrec := ih _ _ h u
        rw [hrec, alGetD_alAdd]
        simp only [List.map_cons, List.sum_cons]
        by_cases hu : w.author = u
        · have h2 : entryContrib ds de u w = w.hours := by
            simp only [entryContrib, hp]
            rw [if_pos ⟨hin, hu⟩]
          rw [h2, if_pos hu.symm]
          ring
        · have h2 : entryContrib ds de u w = 0 := by
            simp only [entryContrib, hp]
            rw [if_neg (fun hc => hu hc.2)]
          rw [h2, if_neg (fun hc => hu hc.symm)]
          ring
      · rw [if_neg hin] at h
        have hrec := ih _ _ h u
        rw [hrec]
        have h2 : entryContrib ds de u w = 0 := by
          simp only [entryContrib, hp]
          rw [if_neg (fun hc => hin hc.1)]
        simp only [List.map_cons, List.sum_cons, h2]
        ring

theorem weekFoldIssues_getD (ds de : Int) :
    ∀ (m : List (String × List Worklog))
      (acc acc' : List (String × List Worklog) × List (String × ℚ)),
      weekFoldIssues ds de m acc = some acc' → ∀ u,
      alGetD acc'.2 u 0 = alGetD acc.2 u 0 + weekSum ds de u m := by
  intro m
  induction m with
  | nil =>
    intro acc acc' h u
    rw [weekFoldIssues] at h
    cases h
    simp [weekSum]
  | cons p rest ih =>
    intro acc acc' h u
    obtain ⟨k, ws⟩ := p
    rw [weekFoldIssues] at h
    rcases hacc : weekFoldWorklogs ds de k ws acc with _ | acc₁
    · rw [hacc] at h
      exact absurd h (by simp)
    · rw [hacc] at h
      have h1 := weekFoldWorklogs_getD ds de k ws acc acc₁ hacc u
      have h2 := ih _ _ h u
      rw [h2, h1]
      simp only [weekSum, List.map_cons, List.sum_cons]
      ring

theorem weekSum_removal (ds de : Int) (u : String)
    (L₁ L₂ : List (String × List Worklog)) (k : String)
    (W₁ W₂ : List Worklog) (e : Worklog) :
    weekSum ds de u (L₁ ++ (k, W₁ ++ e :: W₂) :: L₂)
      = weekSum ds de u (L₁ ++ (k, W₁ ++ W₂) :: L₂) + entryContrib ds de u e := by
  have hin : ((W₁ ++ e :: W₂).map (entryContrib ds de u)).sum
      = ((W₁ ++ W₂).map (entryContrib ds de u)).sum + entryContrib ds de u e := by
    simp only [List.map_append, List.sum_append, List.map_cons, List.sum_cons]
    ring
  simp only [weekSum, List.map_append, List.sum_append, List.map_cons, List.sum_cons, hin]
  ring

/-- Every entry of a `statsFold` result comes from the accumulator or was
built by `buildWeekStat` on a member of the week list. -/
theorem statsFold_mem_info (pd : ProjectData) :
    ∀ (ws : List (String × WeekInfo)) (acc out : List (String × WeeklyStat)),
      statsFold pd ws acc = some out → ∀ p ∈ out,
      p ∈ acc ∨ ∃ info, (p.1, info) ∈ ws ∧ buildWeekStat pd p.1 info = some p.2 := by
  intro ws
  induction ws with
  | nil =>
    intro acc out h p hp
    rw [statsFold] at h
    cases h
    exact Or.inl hp
  | cons q rest ih =>
    intro acc out h p hp
    obtain ⟨w, info⟩ := q
    rw [statsFold] at h
    rcases hb : buildWeekStat pd w info with _ | st
    · rw [hb] at h
      exact absurd h (by simp)
    · rw [hb] at h
      rcases ih _ _ h p hp with h1 | ⟨info', hmem, hbuild⟩
      · rcases mem_alSet h1 with h2 | h2
        · subst h2
          exact Or.inr ⟨info, List.mem_cons_self _ _, hb⟩
        · exact Or.inl h2
      · exact Or.inr ⟨info', List.mem_cons_of_mem _ hmem, hbuild⟩

/-- Every member of the `weeks_info` dict built by `processWeeks` carries
the window (start, end) of the fetch round it was recorded in, and its
name encodes that round's index. -/
theorem processWeeks_weeks_mem (fetchIssues : Int × Int → List RawIssue)
    (worklogsOf : String → List RawWorklog) :
    ∀ (ws : List (Int × Int)) (idx : Nat) (st st' : ProjectData),
      processWeeks fetchIssues worklogsOf idx ws st = some st' →
      ∀ p ∈ st'.weeks_info, p ∈ st.weeks_info ∨
        ∃ r, ∃ hr : r < ws.length,
          p.1 = weekName (idx + r) (ws.get ⟨r, hr⟩).1 (ws.get ⟨r, hr⟩).2 ∧
          p.2.start_date = (ws.get ⟨r, hr⟩).1 ∧ p.2.end_date = (ws.get ⟨r, hr⟩).2 := by
  intro ws
  induction ws with
  | nil =>
    intro idx st st' h p hp
    simp only [processWeeks, Option.some.injEq] at h
    rw [← h] at hp
    exact Or.inl hp
  | cons q rest ih =>
    intro idx st st' h p hp
    obtain ⟨ds, de⟩ := q
    simp only [processWeeks] at h
    split at h
    · exact absurd h (by simp)
    · rename_i st₃ heq
      have hw3 := processIssues_weeks worklogsOf _ _ _ _ _ _ heq
      dsimp only at hw3
      rcases ih _ _ _ h p hp with h1 | ⟨r, hr, he1, he2, he3⟩
      · rw [hw3] at h1
        rcases mem_alSet h1 with h2 | h2
        · refine Or.inr ⟨0, by simp, ?_, ?_, ?_⟩ <;> rw [h2] <;> simp
        · rcases mem_alSet h2 with h3 | h3
          · refine Or.inr ⟨0, by simp, ?_, ?_, ?_⟩ <;> rw [h3] <;> simp
          · exact Or.inl h3
      · refine Or.inr ⟨r + 1, by simpa using Nat.succ_lt_succ hr, ?_, ?_, ?_⟩
        · rw [he1]
          simp only [List.get_eq_getElem, List.getElem_cons_succ]
          rw [Nat.add_assoc, Nat.add_comm 1 r]
        · rw [he2]
          simp
        · rw [he3]
          simp

/-- C5: a recorded work-log entry contributes to each weekly stat exactly
the indicator of that week's range containing its parsed date: an entry
inside no window's range adds nothing to any week's logged (or, via the
total decomposition, total) hours, an entry inside a window adds its
hours to that window — and ranges of distinct recorded weeks are
disjoint, so at most one week receives it.  Meanwhile every worklog of an
observed issue is retained in `all_worklogs`, whatever its date. -/
theorem claim_C5_out_of_range_entries
    (cur : Int) (n : Nat) (fetchIssues : Int × Int → List RawIssue)
    (worklogsOf : String → List RawWorklog) (pd : ProjectData)
    (stats : List (String × WeeklyStat))
    (L₁ L₂ : List (String × List Worklog)) (k : String)
    (W₁ W₂ : List Worklog) (e : Worklog) (d : Int)
    (hcol : collect_project_data cur n fetchIssues worklogsOf = some pd)
    (hstats : create_weekly_stats pd = some stats)
    (hdec : pd.all_worklogs = L₁ ++ (k, W₁ ++ e :: W₂) :: L₂)
    (hd : parseDate e.date = some d) :
    (∀ k', (∃ r, ∃ hr : r < (calculate_working_weeks cur n).length,
        k' ∈ (fetchIssues ((calculate_working_weeks cur n).get ⟨r, hr⟩)).map RawIssue.key) →
      ∀ wl ∈ worklogsOf k', extract_worklog_data wl k' ∈ alGetD pd.all_worklogs k' []) ∧
    (∀ p ∈ stats,
      (∀ u, alGetD p.2.worked_hours u 0
          = weekSum p.2.start_date p.2.end_date u (L₁ ++ (k, W₁ ++ W₂) :: L₂)
            + (if (dayOf p.2.start_date ≤ d ∧ d ≤ dayOf p.2.end_date) ∧ e.author = u
               then e.hours else 0)) ∧
      (∀ u, alGetD p.2.total_worked_hours u 0
          = alGetD p.2.worked_hours u 0 + alGetD p.2.estimated_as_worked_hours u 0)) ∧
    (∀ p ∈ stats, ∀ q ∈ stats, p ≠ q →
      ¬((dayOf p.2.start_date ≤ d ∧ d ≤ dayOf p.2.end_date) ∧
        (dayOf q.2.start_date ≤ d ∧ d ≤ dayOf q.2.end_date))) := by
  rw [create_weekly_stats] at hstats
  refine ⟨?_, ?_, ?_⟩
  · intro k' hobs wl hwl
    rw [collect_project_data] at hcol
    exact processWeeks_worklogs_retain fetchIssues worklogsOf _ 0 _ _ hcol k'
      rfl hobs wl hwl
  · intro p hp
    rcases statsFold_mem_info pd pd.weeks_info [] stats hstats p hp with h0 | ⟨info, _, hbuild⟩
    · exact absurd h0 (List.not_mem_nil _)
    obtain ⟨acc, hacc, hst⟩ := buildWeekStat_inv hbuild
    have hworked : p.2.worked_hours = acc.2 := by rw [hst]
    have hsd : p.2.start_date = info.start_date := by rw [hst]
    have hed : p.2.end_date = info.end_date := by rw [hst]
    constructor
    · intro u
      have h1 := weekFoldIssues_getD info.start_date info.end_date pd.all_worklogs
        ([], []) acc hacc u
      rw [hdec, weekSum_removal] at h1
      dsimp only at h1
      rw [show alGetD ([] : List (String × ℚ)) u 0 = 0 from rfl, zero_add] at h1
      rw [hworked, hsd, hed, h1]
      simp only [entryContrib, hd]
    · intro u
      rw [hst]
      dsimp only
      exact buildTotals_getD _ _ u (buildEstimated_keys_nodup _)
  · intro p hp q hq hne
    have hnodup : (stats.map Prod.fst).Nodup :=
      statsFold_keys_nodup pd pd.weeks_info [] stats hstats (by simp)
    have hkey : p.1 ≠ q.1 := fun h1 =>
      hne (List.inj_on_of_nodup_map hnodup hp hq h1)
    rcases statsFold_mem_info pd pd.weeks_info [] stats hstats p hp with h0 | ⟨ip, hip, hbp⟩
    · exact absurd h0 (List.not_mem_nil _)
    rcases statsFold_mem_info pd pd.weeks_info [] stats hstats q hq with h0 | ⟨iq, hiq, hbq⟩
    · exact absurd h0 (List.not_mem_nil _)
    rw [collect_project_data] at hcol
    have hwp := processWeeks_weeks_mem fetchIssues worklogsOf _ 0 _ _ hcol (p.1, ip) hip
    have hwq := processWeeks_weeks_mem fetchIssues worklogsOf _ 0 _ _ hcol (q.1, iq) hiq
    rcases hwp with h0 | ⟨r, hr, hn1, hs1, he1⟩
    · exact absurd h0 (List.not_mem_nil _)
    rcases hwq with h0 | ⟨r', hr', hn2, hs2, he2⟩
    · exact absurd h0 (List.not_mem_nil _)
    dsimp only at hn1 hs1 he1 hn2 hs2 he2
    have hrr : r ≠ r' := by
      intro hEq
      subst hEq
      apply hkey
      rw [hn1, hn2]
    obtain ⟨accp, haccp, hstp⟩ := buildWeekStat_inv hbp
    obtain ⟨accq, haccq, hstq⟩ := buildWeekStat_inv hbq
    have hps : p.2.start_date = ip.start_date := by rw [hstp]
    have hpe : p.2.end_date = ip.end_date := by rw [hstp]
    have hqs : q.2.start_date = iq.start_date := by rw [hstq]
    have hqe : q.2.end_date = iq.end_date := by rw [hstq]
    have hgp := calculate_working_weeks_get cur n r hr
    have hgq := calculate_working_weeks_get cur n r' hr'
    rintro ⟨⟨hb1, hb2⟩, hb3, hb4⟩
    rw [hps, hs1, hgp] at hb1
    rw [hpe, he1, hgp] at hb2
    rw [hqs, hs2, hgq] at hb3
    rw [hqe, he2, hgq] at hb4
    dsimp only at hb1 hb2 hb3 hb4
    simp only [dayOf] at hb1 hb2 hb3 hb4
    omega


set_option maxRecDepth 2000 in
/-- Witness for C5: in scenario 2 the out-of-window entry of `X-2` is
retained in the collected `all_worklogs` bundle. -/
theorem claim_C5_witness :
    extract_worklog_data rawOut "X-2" ∈ alGetD pdS2.all_worklogs "X-2" [] :=
  (claim_C5_out_of_range_entries t0 1 fetchS1 wlofS2 pdS2 statsS2
      [] [] "X-2" [extract_worklog_data rawIn "X-2"] []
      (extract_worklog_data rawOut "X-2")
      ((parseDate (extract_worklog_data rawOut "X-2").date).getD 0)
      (opt_eq_some_getD emptyProjectData (by with_unfolding_all decide))
      (opt_eq_some_getD [] (by with_unfolding_all decide))
      (by with_unfolding_all rfl)
      (opt_eq_some_getD 0 (by with_unfolding_all decide))).1
    "X-2"
    ⟨0, by with_unfolding_all decide,
      show "X-2" ∈ ["X-1", "X-2"] from List.mem_cons_of_mem _ (List.mem_cons_self _ _)⟩
    rawOut
    (show rawOut ∈ [rawIn, rawOut] from List.mem_cons_of_mem _ (List.mem_cons_self _ _))

/-! ## The hours report (C1) -/

theorem unionFold_mem (u : String) :
    ∀ (ks acc : List String),
      u ∈ ks.foldl (fun a k => if a.contains k then a else a ++ [k]) acc ↔
        u ∈ acc ∨ u ∈ ks := by
  intro ks
  induction ks with
  | nil =>
    intro acc
    simp
  | cons k ks' ih =>
    intro acc
    rw [List.foldl_cons]
    by_cases h : acc.contains k
    · rw [if_pos h]
      rw [ih]
      have hk : k ∈ acc := List.elem_iff.mp h
      constructor
      · rintro (h1 | h1)
        · exact Or.inl h1
        · exact Or.inr (List.mem_cons_of_mem _ h1)
      · rintro (h1 | h1)
        · exact Or.inl h1
        · rcases List.mem_cons.mp h1 with h2 | h2
          · exact Or.inl (h2 ▸ hk)
          · exact Or.inr h2
    · rw [if_neg h]
      rw [ih]
      simp only [List.mem_append, List.mem_singleton, List.mem_cons]
      tauto

theorem hoursAllUsers_mem_aux (u : String) :
    ∀ (wks : List (String × WeeklyStat)) (acc : List String),
      u ∈ wks.foldl (fun acc p => (p.2.worked_hours.map Prod.fst).foldl
          (fun a k => if a.contains k then a else a ++ [k]) acc) acc ↔
        u ∈ acc ∨ ∃ p ∈ wks, u ∈ p.2.worked_hours.map Prod.fst := by
  intro wks
  induction wks with
  | nil =>
    intro acc
    simp
  | cons q rest ih =>
    intro acc
    rw [List.foldl_cons, ih, unionFold_mem]
    constructor
    · rintro ((h1 | h1) | ⟨p, hp, h1⟩)
      · exact Or.inl h1
      · exact Or.inr ⟨q, List.mem_cons_self _ _, h1⟩
      · exact Or.inr ⟨p, List.mem_cons_of_mem _ hp, h1⟩
    · rintro (h1 | ⟨p, hp, h1⟩)
      · exact Or.inl (Or.inl h1)
      · rcases List.mem_cons.mp hp with h2 | h2
        · exact Or.inl (Or.inr (h2 ▸ h1))
        · exact Or.inr ⟨p, h2, h1⟩

theorem hoursAllUsers_mem (u : String) (wks : List (String × WeeklyStat)) :
    u ∈ hoursAllUsers wks ↔ ∃ p ∈ wks, u ∈ p.2.worked_hours.map Prod.fst := by
  rw [hoursAllUsers, hoursAllUsers_mem_aux]
  simp

/-- C1 (amended): the hours table has one row per author appearing in some
window's LOGGED hours map (`worked_hours` — authors present only through
the estimated fallback are dropped), one column per retained window label
suffixed with " (ч)", and each cell is the author's logged hours for that
window rounded to two decimals, 0.0 when the author has no entry there —
never a missing cell. -/
theorem claim_C1_hours_report_worked_rows (weekly : List (String × WeeklyStat)) :
    ((create_hours_report weekly).cols
      = (weeklyEntries weekly).map (fun p => p.1 ++ " (ч)")) ∧
    (∀ u, u ∈ (create_hours_report weekly).users ↔
      ∃ p ∈ weeklyEntries weekly, alContains p.2.worked_hours u = true) ∧
    (∀ u j (hj : j < (weeklyEntries weekly).length),
      (create_hours_report weekly).cellOf u j
        = round2 (alGetD ((weeklyEntries weekly).get ⟨j, hj⟩).2.worked_hours u 0)) ∧
    (∀ u j (hj : j < (weeklyEntries weekly).length),
      alContains ((weeklyEntries weekly).get ⟨j, hj⟩).2.worked_hours u = false →
      (create_hours_report weekly).cellOf u j = 0) := by
  refine ⟨rfl, ?_, ?_, ?_⟩
  · intro u
    have h1 : (create_hours_report weekly).users
        = sortDescBy (hoursRawTotal (weeklyEntries weekly))
            (hoursAllUsers (weeklyEntries weekly)) := rfl
    rw [h1, (sortDescBy_perm _ _).mem_iff, hoursAllUsers_mem]
    constructor
    · rintro ⟨p, hp, h2⟩
      exact ⟨p, hp, (alContains_iff_mem_keys _ _).mpr h2⟩
    · rintro ⟨p, hp, h2⟩
      exact ⟨p, hp, (alContains_iff_mem_keys _ _).mp h2⟩
  · intro u j hj
    have h1 : (create_hours_report weekly).cellOf u j
        = round2 (hoursRawCell (weeklyEntries weekly) u j) := rfl
    rw [h1, hoursRawCell, List.getElem?_eq_getElem hj]
    rw [List.get_eq_getElem]
  · intro u j hj hno
    have h1 : (create_hours_report weekly).cellOf u j
        = round2 (alGetD ((weeklyEntries weekly).get ⟨j, hj⟩).2.worked_hours u 0) := by
      rw [show (create_hours_report weekly).cellOf u j
          = round2 (hoursRawCell (weeklyEntries weekly) u j) from rfl]
      rw [hoursRawCell, List.getElem?_eq_getElem hj, List.get_eq_getElem]
    rw [h1, alGetD_eq_default_of_not_contains 0 hno]
    with_unfolding_all decide

/-- Witness for C1: the amended row rule evaluated in scenario 1 for the
author `bob`. -/
theorem claim_C1_witness :
    "bob" ∈ (create_hours_report statsS1).users ↔
      ∃ p ∈ weeklyEntries statsS1, alContains p.2.worked_hours "bob" = true :=
  (claim_C1_hours_report_worked_rows statsS1).2.1 "bob"

set_option maxRecDepth 2000 in
/-- Counterexample to C1 as stated: in scenario 1 the author `alice` has
8 total hours (all from the estimated fallback) in the only window, yet
the hours table has no row for her, because the row index is built from
`worked_hours`, not `total_worked_hours`. -/
theorem claim_C1_counterexample :
    alGetD (headStat statsS1).2.total_worked_hours "alice" 0 = 8 ∧
    "alice" ∉ (create_hours_report statsS1).users := by
  constructor
  · with_unfolding_all decide
  · with_unfolding_all decide
